import Mathlib

/-!
# Enum store: `searchlib/attribute/enumstore.hpp`

A shallow embedding of `search::EnumStoreT<EntryT>`.  The class is a thin layer over
`vespalib::datastore::UniqueStore`, its allocator and its dictionary; those headers are
not part of the sources at hand, so the operations they provide are modelled from the
specification and marked as such.  Everything in `enumstore.hpp` itself is translated
function by function.

Conventions
* `E` is the template parameter `EntryT`; the primary comparator is `<` of a linear order.
* a reference (`Index`, `EntryRef`) is a natural number, `0` being the invalid sentinel;
  reference `k + 1` designates slot `k` of the allocator.
* code that can abort (a failed `assert`) or dereference a reference that has no entry
  behind it returns `Except Fault _`.
* a pointer/length pair `(src, available)` is the list of the `available` readable bytes.
-/

namespace search

/-- Mirrors `EntryRef::valid()` on a reference (`IEnumStore::Index`, an `EntryRef`, here a
natural number): every reference but the sentinel `0` is valid. -/
def Index.valid (idx : Nat) : Bool := idx != 0

/-- Mirrors `IEnumStore::IndexVector`. -/
abbrev IndexVector := List Nat

/-- Mirrors `IEnumStore::IndexSet`, an ordered set of references. -/
abbrev IndexSet := Finset Nat

/-- Byte of a raw buffer. -/
abbrev Byte := Fin 256

/-- Ways in which a call does not return normally. -/
inductive Fault where
  /-- an `assert` failed and the process aborted -/
  | assertion
  /-- a reference with no entry behind it was dereferenced (caller contract violation) -/
  | bad_ref
  /-- the iteration bound of a loop model was exhausted (never reached, see `load_unique_values_internal_fuel`) -/
  | fuel
  deriving DecidableEq, Repr

/-- Modelled from the spec: `UniqueStoreEntry` (unique_store_entry.h is not among the sources).
"Entry — the in-storage representation: the value payload plus a reference count." -/
structure UniqueStoreEntry (E : Type) where
  value : E
  ref_count : Nat
  deriving DecidableEq, Repr

/-- Modelled from the spec: the typed slot allocator with its generation hold lists
(unique_store_allocator.h and datastorebase.h are not among the sources).
`slots` is the backing storage, `free_list` the slots returned for reuse, `hold1` the active
generation's hold list, `hold2` the holds of superseded generations, each tagged with the
generation it was transferred under. -/
structure UniqueStoreAllocator (E : Type) where
  slots : List (UniqueStoreEntry E)
  free_list : List Nat
  hold1 : List Nat
  hold2 : List (Nat × Nat)
  deriving DecidableEq, Repr

namespace UniqueStoreAllocator

variable {E : Type}

/-- Allocator of a freshly constructed store. -/
def empty : UniqueStoreAllocator E := ⟨[], [], [], []⟩

/-- Modelled from the spec: `get_wrapped(ref)`, the entry behind a reference.  Dereferencing
the sentinel or a reference beyond the storage is a contract violation. -/
def get_wrapped (a : UniqueStoreAllocator E) (ref : Nat) : Except Fault (UniqueStoreEntry E) :=
  if ref = 0 then .error .bad_ref
  else match a.slots[ref - 1]? with
    | some e => .ok e
    | none => .error .bad_ref

/-- Modelled from the spec: `get(ref)`, "never fails for a valid Index; invalid Index is a
caller contract violation". -/
def get (a : UniqueStoreAllocator E) (ref : Nat) : Except Fault E :=
  match a.get_wrapped ref with
  | .ok e => .ok e.value
  | .error f => .error f

/-- Modelled from the spec: `allocate(value) -> Index`, "copies value into a buffer, returns a
stable reference"; a slot "returned to the allocator for reuse" is taken first, otherwise the
storage grows.  A new entry has reference count 0 (it is "possibly unused"). -/
def allocate (a : UniqueStoreAllocator E) (value : E) : Nat × UniqueStoreAllocator E :=
  match a.free_list with
  | ref :: rest => (ref, { a with slots := a.slots.set (ref - 1) ⟨value, 0⟩, free_list := rest })
  | [] => (a.slots.length + 1, { a with slots := a.slots ++ [⟨value, 0⟩] })

/-- Modelled from the spec: `hold(Nat)` "enqueues the slot into the active generation's Hold
List rather than freeing it". -/
def hold (a : UniqueStoreAllocator E) (ref : Nat) : UniqueStoreAllocator E :=
  { a with hold1 := a.hold1 ++ [ref] }

/-- Modelled from the spec: `transfer_hold_lists(generation)`, the active holds become
superseded holds of `generation`. -/
def transferHoldLists (a : UniqueStoreAllocator E) (generation : Nat) : UniqueStoreAllocator E :=
  { a with hold1 := [], hold2 := a.hold2 ++ a.hold1.map (fun ref => (generation, ref)) }

/-- Modelled from the spec: `trim_hold_lists(first_used_generation)` "frees every hold whose
generation is strictly below `first_used_generation`"; freed slots are returned to the
allocator for reuse. -/
def trimHoldLists (a : UniqueStoreAllocator E) (firstUsed : Nat) : UniqueStoreAllocator E :=
  { a with
    hold2 := a.hold2.filter (fun h => !decide (h.1 < firstUsed)),
    free_list := a.free_list ++ (a.hold2.filter (fun h => decide (h.1 < firstUsed))).map Prod.snd }

/-- Modelled from the spec: `inc_ref_count` on the entry behind `ref`. -/
def inc_ref_count (a : UniqueStoreAllocator E) (ref : Nat) : Except Fault (UniqueStoreAllocator E) :=
  match a.get_wrapped ref with
  | .ok e => .ok { a with slots := a.slots.set (ref - 1) { e with ref_count := e.ref_count + 1 } }
  | .error f => .error f

/-- Reference `ref` designates a slot of the allocator's storage. -/
def Allocated (a : UniqueStoreAllocator E) (ref : Nat) : Prop :=
  ref ≠ 0 ∧ ref ≤ a.slots.length

end UniqueStoreAllocator

/-- Modelled from the spec: the primary comparator (enumcomparator.h is not among the
sources), a strict total order on the pointed-to values.  A comparator made for a lookup value
resolves the invalid reference to that value, which is how `load_unique_value` compares the
previous entry with the value just read: `cmp(prev_idx, Index())`. -/
structure ComparatorType (E : Type) where
  fallback_value : E

namespace ComparatorType

variable {E : Type} [LinearOrder E]

/-- Value a reference stands for under this comparator. -/
def get (cmp : ComparatorType E) (a : UniqueStoreAllocator E) (ref : Nat) : Except Fault E :=
  if Index.valid ref then a.get ref else .ok cmp.fallback_value

/-- Modelled from the spec: `cmp(lhs, rhs)`, true when the value of `lhs` is strictly less than
the value of `rhs`. -/
def less (cmp : ComparatorType E) (a : UniqueStoreAllocator E) (lhs rhs : Nat) : Except Fault Bool :=
  match cmp.get a lhs, cmp.get a rhs with
  | .ok x, .ok y => .ok (decide (x < y))
  | .error f, _ => .error f
  | _, .error f => .error f

end ComparatorType

/-- Mirrors `UniqueStoreAddResult`: the reference and whether it was newly inserted. -/
structure UniqueStoreAddResult where
  ref : Nat
  inserted : Bool
  deriving DecidableEq, Repr

/-- Modelled from the spec: `UniqueStore` (unique_store.h is not among the sources): the slot
allocator together with the dictionary, an ordered sequence of references. -/
structure UniqueStore (E : Type) where
  allocator : UniqueStoreAllocator E
  dict : List Nat
  deriving DecidableEq, Repr

namespace UniqueStore

variable {E : Type} [LinearOrder E]

/-- Store as constructed: nothing allocated, empty dictionary. -/
def empty : UniqueStore E := ⟨UniqueStoreAllocator.empty, []⟩

/-- Modelled from the spec: lower bound of the dictionary's ordered-map primitive: the
references whose value is below the comparator's value, and the remaining ones. -/
def lower_bound (cmp : ComparatorType E) (a : UniqueStoreAllocator E) :
    List Nat → Except Fault (List Nat × List Nat)
  | [] => .ok ([], [])
  | ref :: rest =>
    match cmp.less a ref 0 with
    | .error f => .error f
    | .ok true =>
      match lower_bound cmp a rest with
      | .ok (lo, hi) => .ok (ref :: lo, hi)
      | .error f => .error f
    | .ok false => .ok ([], ref :: rest)

/-- Modelled from the spec: dictionary `add(value) -> (Index, inserted)`: "on a cache-miss
computed via the primary comparator, the Slot Allocator allocates storage and the Dictionary
inserts; on hit, `inserted=false`".  `insertEntry` is the allocation callback handed in by the
caller. -/
def dict_add (s : UniqueStore E) (cmp : ComparatorType E)
    (insertEntry : UniqueStoreAllocator E → Nat × UniqueStoreAllocator E) :
    Except Fault (UniqueStoreAddResult × UniqueStore E) :=
  match lower_bound cmp s.allocator s.dict with
  | .error f => .error f
  | .ok (lo, []) =>
    let r := insertEntry s.allocator
    .ok (⟨r.1, true⟩, ⟨r.2, lo ++ [r.1]⟩)
  | .ok (lo, ref :: hi) =>
    match cmp.less s.allocator 0 ref with
    | .error f => .error f
    | .ok false => .ok (⟨ref, false⟩, s)
    | .ok true =>
      let r := insertEntry s.allocator
      .ok (⟨r.1, true⟩, ⟨r.2, lo ++ r.1 :: ref :: hi⟩)

/-- Modelled from the spec: `UniqueStore::add(value)`: a miss allocates and inserts with
reference count 1, "repeated inserts of an equal value increment refcount and return the
existing Index". -/
def add (s : UniqueStore E) (value : E) : Except Fault (UniqueStoreAddResult × UniqueStore E) :=
  match s.dict_add ⟨value⟩ (fun a => a.allocate value) with
  | .error f => .error f
  | .ok (result, s1) =>
    match s1.allocator.inc_ref_count result.ref with
    | .error f => .error f
    | .ok a2 => .ok (result, { s1 with allocator := a2 })

/-- Modelled from the spec: dictionary `build(indices)`: "accepts a pre-sorted (by primary
comparator) sequence and asserts strict ascending order"; the check on a sequence of
references. -/
def build_sorted (a : UniqueStoreAllocator E) : List Nat → Except Fault Unit
  | [] => .ok ()
  | [ref] =>
    match a.get ref with
    | .ok _ => .ok ()
    | .error f => .error f
  | r1 :: r2 :: rest =>
    match a.get r1, a.get r2 with
    | .ok x, .ok y => if x < y then build_sorted a (r2 :: rest) else .error .assertion
    | .error f, _ => .error f
    | _, .error f => .error f

/-- Modelled from the spec: dictionary `build(indices)`: the dictionary becomes the given
sequence once its order has been asserted. -/
def build (s : UniqueStore E) (refs : IndexVector) : Except Fault (UniqueStore E) :=
  match build_sorted s.allocator refs with
  | .ok _ => .ok { s with dict := refs }
  | .error f => .error f

end UniqueStore

/-- Mirrors `vespalib::MemoryUsage` as far as `consider_compact` reads it. -/
structure MemoryUsage where
  usedBytes : Nat
  deadBytes : Nat
  deriving DecidableEq, Repr

/-- Mirrors `vespalib::AddressSpace`: used, dead and limit. -/
structure AddressSpace where
  used : Nat
  dead : Nat
  limit : Nat
  deriving DecidableEq, Repr

/-- State of an `EnumStoreT<EntryT>`: the unique store (which owns the dictionary `_dict` points
to) and the two cached usage counters. -/
structure EnumStoreT (E : Type) where
  _store : UniqueStore E
  _cached_values_memory_usage : MemoryUsage
  _cached_values_address_space_usage : AddressSpace
  deriving DecidableEq, Repr

/-- In-memory layout of `EntryType`: `size` is `sizeof(EntryType)`, `read` gives the object whose
representation is a block of `size` bytes (`*static_cast<const EntryType*>(src)`) and `write` the
representation of an object; copying the representation of an object gives back the object. -/
structure EntryLayout (E : Type) where
  size : Nat
  size_pos : 0 < size
  read : List Byte → E
  write : E → List Byte
  write_length : ∀ v, (write v).length = size
  read_write : ∀ v, read (write v) = v

namespace EnumStoreT

variable {E : Type} [LinearOrder E]

/-- Mirrors the constructor `EnumStoreT(bool has_postings)`: empty store, cached memory usage
zero, cached address space `(0, 0, 1 << 32)`. -/
def mk_empty : EnumStoreT E := ⟨UniqueStore.empty, ⟨0, 0⟩, ⟨0, 0, 2 ^ 32⟩⟩

/-- Mirrors `make_comparator(value)`. -/
def make_comparator (value : E) : ComparatorType E := ⟨value⟩

/-- Mirrors `get_entry_base(idx).get_ref_count()`. -/
def get_ref_count (s : EnumStoreT E) (idx : Nat) : Except Fault Nat :=
  match s._store.allocator.get_wrapped idx with
  | .ok e => .ok e.ref_count
  | .error f => .error f

/-- Mirrors `EnumStoreT::insert`: `return _store.add(value).ref();`. -/
def insert (s : EnumStoreT E) (value : E) : Except Fault (Nat × EnumStoreT E) :=
  match s._store.add value with
  | .ok (result, st) => .ok (result.ref, { s with _store := st })
  | .error f => .error f

/-- Mirrors `EnumStoreT::getValue`: the result flag and the content of the output parameter
`value` after the call. -/
def getValue (s : EnumStoreT E) (idx : Nat) (value : E) : Except Fault (Bool × E) :=
  if !Index.valid idx then .ok (false, value)
  else
    match s._store.allocator.get idx with
    | .ok v => .ok (true, v)
    | .error f => .error f

/-- Mirrors `EnumStoreT::freeUnusedEnum`: the set `unused` after the call and the store. -/
def freeUnusedEnum (s : EnumStoreT E) (idx : Nat) (unused : IndexSet) :
    Except Fault (IndexSet × EnumStoreT E) :=
  match s.get_ref_count idx with
  | .error f => .error f
  | .ok ref_count =>
    if ref_count = 0 then
      .ok (Insert.insert idx unused,
        { s with _store := { s._store with allocator := s._store.allocator.hold idx } })
    else .ok (unused, s)

/-- Mirrors `EnumStoreT::transferHoldLists`: `_store.transferHoldLists(generation)`. -/
def transferHoldLists (s : EnumStoreT E) (generation : Nat) : EnumStoreT E :=
  { s with _store := { s._store with allocator := s._store.allocator.transferHoldLists generation } }

/-- Mirrors `EnumStoreT::trimHoldLists`: `_store.trimHoldLists(firstUsed)`, "remove generations
in the range [0, firstUsed>". -/
def trimHoldLists (s : EnumStoreT E) (firstUsed : Nat) : EnumStoreT E :=
  { s with _store := { s._store with allocator := s._store.allocator.trimHoldLists firstUsed } }

/-- Mirrors `EnumStoreT::load_unique_value`: the returned size (or -1), the reference parameter
`idx` after the call, and the store.  `src` holds the `available` readable bytes. -/
def load_unique_value (c : EntryLayout E) (s : EnumStoreT E) (src : List Byte) (idx : Nat) :
    Except Fault (Int × Nat × EnumStoreT E) :=
  if src.length < c.size then .ok (-1, idx, s)
  else
    let value := c.read (src.take c.size)
    let prev_idx := idx
    let r := s._store.allocator.allocate value
    let s1 : EnumStoreT E := { s with _store := { s._store with allocator := r.2 } }
    if Index.valid prev_idx then
      match (make_comparator value).less s1._store.allocator prev_idx 0 with
      | .error f => .error f
      | .ok true => .ok ((c.size : Int), r.1, s1)
      | .ok false => .error .assertion
    else .ok ((c.size : Int), r.1, s1)

/-- The `while (left > 0)` loop of `load_unique_values_internal`; `p` holds the `left` bytes not
yet consumed, `idx1` is the loop's reference variable and `idx` the caller's vector.  The first
argument bounds the number of iterations. -/
def load_unique_values_loop (c : EntryLayout E) (available : Nat) :
    Nat → EnumStoreT E → List Byte → Nat → IndexVector → Except Fault (Int × IndexVector × EnumStoreT E)
  | 0, s, p, _, idx =>
    if 0 < p.length then .error .fuel else .ok (((available - p.length : Nat) : Int), idx, s)
  | fuel + 1, s, p, idx1, idx =>
    if 0 < p.length then
      match load_unique_value c s p idx1 with
      | .error f => .error f
      | .ok (sz, idx1', s') =>
        if sz < 0 then .ok (sz, idx, s')
        else load_unique_values_loop c available fuel s' (p.drop sz.toNat) idx1' (idx ++ [idx1'])
    else .ok (((available - p.length : Nat) : Int), idx, s)

/-- Mirrors `EnumStoreT::load_unique_values_internal`: the result, the vector `idx` after the
call and the store.  Every iteration consumes at least one byte, so `src.length` iterations are
enough. -/
def load_unique_values_internal (c : EntryLayout E) (s : EnumStoreT E) (src : List Byte)
    (idx : IndexVector) : Except Fault (Int × IndexVector × EnumStoreT E) :=
  load_unique_values_loop c src.length src.length s src 0 idx

/-- Mirrors `EnumStoreT::load_unique_values`: the dictionary is built when the result is not
negative. -/
def load_unique_values (c : EntryLayout E) (s : EnumStoreT E) (src : List Byte)
    (idx : IndexVector) : Except Fault (Int × IndexVector × EnumStoreT E) :=
  match load_unique_values_internal c s src idx with
  | .error f => .error f
  | .ok (sz, idx', s') =>
    if sz ≥ 0 then
      match s'._store.build idx' with
      | .error f => .error f
      | .ok st => .ok (sz, idx', { s' with _store := st })
    else .ok (sz, idx', s')

/-- Mirrors `EnumStoreT::write_value`: the bytes held by the writer after
`writer.write(&_store.get(idx), sizeof(EntryType))`. -/
def write_value (c : EntryLayout E) (s : EnumStoreT E) (writer : List Byte) (idx : Nat) :
    Except Fault (List Byte) :=
  match s._store.allocator.get idx with
  | .ok v => .ok (writer ++ c.write v)
  | .error f => .error f

/-- Writes the values of a sequence of references one after the other. -/
def write_values (c : EntryLayout E) (s : EnumStoreT E) : List Byte → List Nat → Except Fault (List Byte)
  | writer, [] => .ok writer
  | writer, idx :: rest =>
    match write_value c s writer idx with
    | .ok w => write_values c s w rest
    | .error f => .error f

end EnumStoreT

/-- Arithmetic on `double` as far as `consider_compact` uses it: conversion from `size_t`,
product and comparison.  It is a parameter, no property of it is assumed. -/
structure DoubleArith where
  D : Type
  ofSize : Nat → D
  mul : D → D → D
  lt : D → D → Bool

/-- Mirrors `CompactionStrategy` (compaction_strategy.h is not among the sources): the two
ratios read by `consider_compact`. -/
structure CompactionStrategy (D : Type) where
  getMaxDeadBytesRatio : D
  getMaxDeadAddressSpaceRatio : D

/-- Mirrors `DEAD_BYTES_SLACK = 0x10000u`. -/
def DEAD_BYTES_SLACK : Nat := 0x10000

/-- Mirrors `DEAD_ADDRESS_SPACE_SLACK = 0x10000u`. -/
def DEAD_ADDRESS_SPACE_SLACK : Nat := 0x10000

namespace EnumStoreT

variable {E : Type}

/-- Mirrors the flag `compact_memory` computed by `consider_compact`. -/
def compact_memory (fp : DoubleArith) (s : EnumStoreT E) (strategy : CompactionStrategy fp.D) : Bool :=
  let used_bytes := s._cached_values_memory_usage.usedBytes
  let dead_bytes := s._cached_values_memory_usage.deadBytes
  decide (dead_bytes ≥ DEAD_BYTES_SLACK) &&
    fp.lt (fp.mul (fp.ofSize used_bytes) strategy.getMaxDeadBytesRatio) (fp.ofSize dead_bytes)

/-- Mirrors the flag `compact_address_space` computed by `consider_compact`. -/
def compact_address_space (fp : DoubleArith) (s : EnumStoreT E) (strategy : CompactionStrategy fp.D) :
    Bool :=
  let used_address_space := s._cached_values_address_space_usage.used
  let dead_address_space := s._cached_values_address_space_usage.dead
  decide (dead_address_space ≥ DEAD_ADDRESS_SPACE_SLACK) &&
    fp.lt (fp.mul (fp.ofSize used_address_space) strategy.getMaxDeadAddressSpaceRatio)
      (fp.ofSize dead_address_space)

/-- Mirrors `EnumStoreT::consider_compact`.  `compact_worst` stands for
`EnumStoreT::compact_worst`, which forwards to `UniqueStore::compact_worst` (not among the
sources); it returns the remapper, if any, and the store after compaction. -/
def consider_compact {R : Type} (fp : DoubleArith)
    (compact_worst : EnumStoreT E → Bool → Bool → Option R × EnumStoreT E)
    (s : EnumStoreT E) (strategy : CompactionStrategy fp.D) : Option R × EnumStoreT E :=
  let compact_memory := s.compact_memory fp strategy
  let compact_address_space := s.compact_address_space fp strategy
  if compact_memory || compact_address_space then
    compact_worst s compact_memory compact_address_space
  else (none, s)

end EnumStoreT

/-- Operations on the store's memory: every allocation goes through
`_store.get_allocator().allocate`, every deferred free through `_store.get_allocator().hold`,
and the generation hand-over through `transferHoldLists` and `trimHoldLists`. -/
inductive StoreOp (E : Type) where
  | allocate (value : E)
  | hold (idx : Nat)
  | transferHoldLists (generation : Nat)
  | trimHoldLists (firstUsed : Nat)

namespace StoreOp

variable {E : Type}

/-- Store after one operation, and the reference handed out if the operation allocates. -/
def apply (s : EnumStoreT E) : StoreOp E → EnumStoreT E × Option Nat
  | allocate value =>
    let r := s._store.allocator.allocate value
    ({ s with _store := { s._store with allocator := r.2 } }, some r.1)
  | hold idx => ({ s with _store := { s._store with allocator := s._store.allocator.hold idx } }, none)
  | transferHoldLists generation => (s.transferHoldLists generation, none)
  | trimHoldLists firstUsed => (s.trimHoldLists firstUsed, none)

end StoreOp

/-- The first `n` records of a buffer: consecutive blocks of `sizeof(EntryType)` bytes, each read
as a value (the format of the load path, stated apart from the loader). -/
def EntryLayout.records {E : Type} (c : EntryLayout E) : Nat → List Byte → List E
  | 0, _ => []
  | n + 1, buf => c.read (buf.take c.size) :: EntryLayout.records c n (buf.drop c.size)

/-- The persisted form of a list of values: their representations one after the other. -/
def EntryLayout.encode {E : Type} (c : EntryLayout E) : List E → List Byte
  | [] => []
  | v :: vs => c.write v ++ EntryLayout.encode c vs

/-- Allocates the values of a list one after the other: the references handed out, in order,
and the allocator afterwards. -/
def UniqueStoreAllocator.allocate_all {E : Type} (a : UniqueStoreAllocator E) :
    List E → List Nat × UniqueStoreAllocator E
  | [] => ([], a)
  | v :: vs =>
    ((a.allocate v).1 :: ((a.allocate v).2.allocate_all vs).1, ((a.allocate v).2.allocate_all vs).2)

/-- The store with its allocator replaced. -/
def EnumStoreT.with_allocator {E : Type} (s : EnumStoreT E) (a : UniqueStoreAllocator E) :
    EnumStoreT E :=
  { s with _store := { s._store with allocator := a } }

/-- State of the loop variable `idx1` of `load_unique_values_internal`: invalid before the first
record (`prev = none`), afterwards the reference of the entry allocated for the previous record
`x` (`prev = some x`). -/
def EnumStoreT.LoopInv {E : Type} (s : EnumStoreT E) (idx1 : Nat) : Option E → Prop
  | none => idx1 = 0
  | some x => s._store.allocator.Allocated idx1 ∧ idx1 ∉ s._store.allocator.free_list ∧
      s._store.allocator.get idx1 = .ok x

/-- Layout of a 16-bit unsigned integer on a little-endian platform, an instance of
`EntryLayout` to evaluate the load path on. -/
def le16_layout : EntryLayout (Fin 65536) where
  size := 2
  size_pos := by decide
  read := fun l => ⟨(l.getD 0 0).val + 256 * (l.getD 1 0).val, by
    have h0 := (l.getD 0 0).isLt
    have h1 := (l.getD 1 0).isLt
    omega⟩
  write := fun v => [⟨v.val % 256, by omega⟩, ⟨v.val / 256, by have := v.isLt; omega⟩]
  write_length := fun _ => rfl
  read_write := fun v => by
    apply Fin.ext
    have := v.isLt
    simp only [List.getD_cons_zero, List.getD_cons_succ]
    omega

/-- Arithmetic on rationals, standing in for `double` in evaluations. -/
def EnumStoreT.rat_arith : DoubleArith := ⟨ℚ, fun n => (n : ℚ), fun x y => x * y, fun x y => decide (x < y)⟩

namespace UniqueStore

variable {E : Type} [LinearOrder E]

/-- Modelled from the spec: dictionary `find_index(value) -> Option<Index>`, "lookup without
mutation": the reference at the lower bound when its value is not above the lookup value. -/
def find_index (s : UniqueStore E) (cmp : ComparatorType E) : Except Fault (Option Nat) :=
  match lower_bound cmp s.allocator s.dict with
  | .error f => .error f
  | .ok (_, []) => .ok none
  | .ok (_, ref :: _) =>
    match cmp.less s.allocator 0 ref with
    | .error f => .error f
    | .ok false => .ok (some ref)
    | .ok true => .ok none

/-- Modelled from the spec: the relocation step of compaction, "relocates live entries into
freshly allocated, densely packed buffers, in ascending dictionary order": each entry of the
given references is copied, reference count included, to a fresh slot at the end of the
storage, the old slot goes on the hold list, and the pair (old, new) is recorded. -/
def move_entries (a : UniqueStoreAllocator E) :
    List Nat → Except Fault (List (Nat × Nat) × UniqueStoreAllocator E)
  | [] => .ok ([], a)
  | ref :: rest =>
    match a.get_wrapped ref with
    | .error f => .error f
    | .ok e =>
      match move_entries { a with slots := a.slots ++ [e], hold1 := a.hold1 ++ [ref] } rest with
      | .error f => .error f
      | .ok (table, a2) => .ok ((ref, a.slots.length + 1) :: table, a2)

/-- Modelled from the spec: `UniqueStore::compact_worst(memory_flag, address_space_flag)`: the
live entries, those of the dictionary, are relocated and the dictionary refers to the new
slots; it "returns a remap: a function/table from old Index to new Index".  The flags tell
which resource asked for the compaction; the model has one buffer, compacted whole. -/
def compact_worst (s : UniqueStore E) (_compact_memory _compact_address_space : Bool) :
    Except Fault (Option (List (Nat × Nat)) × UniqueStore E) :=
  match move_entries s.allocator s.dict with
  | .error f => .error f
  | .ok (table, a2) => .ok (some table, ⟨a2, table.map Prod.snd⟩)

/-- Ordering invariant of the dictionary: the values behind its references are strictly
ascending. -/
def Ordered (s : UniqueStore E) : Prop :=
  s.dict.Pairwise (fun r1 r2 =>
    ∃ x y, s.allocator.get r1 = .ok x ∧ s.allocator.get r2 = .ok y ∧ x < y)

end UniqueStore

/-- Mirrors `IEnumStore::EnumIndexRemapper::remap` on the table returned by compaction: the new
reference of a relocated entry, any other reference unchanged. -/
def EnumIndexRemapper.remap (table : List (Nat × Nat)) (idx : Nat) : Nat :=
  match table.lookup idx with
  | some new_idx => new_idx
  | none => idx

namespace EnumStoreT

variable {E : Type} [LinearOrder E]

/-- Mirrors `EnumStoreT::findIndex`: the result flag and the reference parameter `idx` after
the call. -/
def findIndex (s : EnumStoreT E) (value : E) (idx : Nat) : Except Fault (Bool × Nat) :=
  match s._store.find_index (make_comparator value) with
  | .error f => .error f
  | .ok (some ref) => .ok (true, ref)
  | .ok none => .ok (false, idx)

/-- Mirrors `EnumStoreT::compact_worst`: `return _store.compact_worst(...)`. -/
def compact_worst (s : EnumStoreT E) (compact_memory compact_address_space : Bool) :
    Except Fault (Option (List (Nat × Nat)) × EnumStoreT E) :=
  match s._store.compact_worst compact_memory compact_address_space with
  | .error f => .error f
  | .ok (remap, st) => .ok (remap, { s with _store := st })

/-- State of an `EnumStoreT::BatchUpdater`: the store it updates and the set of possibly unused
references. -/
structure BatchUpdater (E : Type) where
  _store : EnumStoreT E
  _possibly_unused : IndexSet

/-- Mirrors `EnumStoreT::BatchUpdater::insert`. -/
def BatchUpdater.insert (u : BatchUpdater E) (value : E) : Except Fault (BatchUpdater E) :=
  let cmp := make_comparator value
  match u._store._store.dict_add cmp (fun a => a.allocate value) with
  | .error f => .error f
  | .ok (result, st) =>
    if result.inserted then
      .ok ⟨{ u._store with _store := st }, Insert.insert result.ref u._possibly_unused⟩
    else .ok ⟨{ u._store with _store := st }, u._possibly_unused⟩

end EnumStoreT

/-- Usage accounting of the data store and of the dictionary (datastorebase.h, memoryusage.h and
the dictionary are not among the sources): what `getMemoryUsage()`, `getAddressSpaceUsage()`,
`_dict->get_memory_usage()` and `MemoryUsage::merge` compute.  They are parameters, no property
of them is assumed. -/
structure UsageAccounting (E : Type) where
  getMemoryUsage : UniqueStoreAllocator E → MemoryUsage
  getAddressSpaceUsage : UniqueStoreAllocator E → AddressSpace
  dict_get_memory_usage : UniqueStore E → MemoryUsage
  merge : MemoryUsage → MemoryUsage → MemoryUsage

/-- Mirrors `EnumStoreT::update_stat`: the returned usage and the store with both cached counters
assigned. -/
def EnumStoreT.update_stat {E : Type} (acc : UsageAccounting E) (s : EnumStoreT E) :
    MemoryUsage × EnumStoreT E :=
  let store := s._store.allocator
  let s1 : EnumStoreT E :=
    { s with
      _cached_values_memory_usage := acc.getMemoryUsage store,
      _cached_values_address_space_usage := acc.getAddressSpaceUsage store }
  let retval := s1._cached_values_memory_usage
  (acc.merge retval (acc.dict_get_memory_usage s._store), s1)

end search

/-! # Simple expand detection: `eval/tensor/dense/dense_simple_expand_function.cpp` -/

namespace vespalib.tensor

/-- Mirrors `eval::ValueType::Dimension` as far as `detect_simple_expand` reads it. -/
structure Dimension where
  name : String
  size : Nat
  deriving DecidableEq, Repr

/-- Mirrors `DenseSimpleExpandFunction::Inner`. -/
inductive Inner where
  | LHS
  | RHS
  deriving DecidableEq, Repr

/-- Mirrors `strip_trivial`: `copy_if` of the dimensions with `dim.size != 1`. -/
def strip_trivial (dim_list : List Dimension) : List Dimension :=
  dim_list.filter (fun dim => dim.size != 1)

/-- Mirrors `detect_simple_expand`; the arguments are `lhs.result_type().dimensions()` and
`rhs.result_type().dimensions()`. -/
def detect_simple_expand (lhs rhs : List Dimension) : Option Inner :=
  match strip_trivial lhs, strip_trivial rhs with
  | [], _ => none
  | _ :: _, [] => none
  | a_front :: a_rest, b_front :: b_rest =>
    if ((a_front :: a_rest).getLast (List.cons_ne_nil _ _)).name < b_front.name then some Inner.RHS
    else if ((b_front :: b_rest).getLast (List.cons_ne_nil _ _)).name < a_front.name then
      some Inner.LHS
    else none

/-- A dimension list sorted by name. -/
def sorted_by_name (dim_list : List Dimension) : Prop :=
  dim_list.Pairwise (fun d e => d.name ≤ e.name)

end vespalib.tensor

namespace search

/-! ## Well-formed states -/

/-- Free list of a well-formed allocator: allocated slots, each listed once. -/
def UniqueStoreAllocator.WF {E : Type} (a : UniqueStoreAllocator E) : Prop :=
  a.free_list.Nodup ∧ ∀ ref ∈ a.free_list, a.Allocated ref

/-- Well-formed store: a well-formed allocator, and the dictionary refers to allocated slots
that are not on the free list. -/
def UniqueStore.WF {E : Type} (s : UniqueStore E) : Prop :=
  s.allocator.WF ∧ ∀ ref ∈ s.dict, s.allocator.Allocated ref ∧ ref ∉ s.allocator.free_list

instance UniqueStoreAllocator.decidableAllocated {E : Type} (a : UniqueStoreAllocator E) (ref : Nat) :
    Decidable (a.Allocated ref) := by
  unfold UniqueStoreAllocator.Allocated; infer_instance

instance UniqueStoreAllocator.decidableWF {E : Type} (a : UniqueStoreAllocator E) : Decidable a.WF := by
  unfold UniqueStoreAllocator.WF; infer_instance

instance UniqueStore.decidableWF {E : Type} (s : UniqueStore E) : Decidable s.WF := by
  unfold UniqueStore.WF; infer_instance

/-! ## Allocator lemmas -/

namespace UniqueStoreAllocator

variable {E : Type}

theorem get_wrapped_of_allocated (a : UniqueStoreAllocator E) (ref : Nat) (h : a.Allocated ref) :
    ∃ e, a.get_wrapped ref = .ok e ∧ a.slots[ref - 1]? = some e := by
  obtain ⟨h0, hle⟩ := h
  have hlt : ref - 1 < a.slots.length := by omega
  refine ⟨a.slots[ref - 1], ?_, List.getElem?_eq_getElem hlt⟩
  simp [get_wrapped, h0, List.getElem?_eq_getElem hlt]

theorem get_wrapped_eq_ok (a : UniqueStoreAllocator E) (ref : Nat) (e : UniqueStoreEntry E) :
    a.get_wrapped ref = .ok e ↔ ref ≠ 0 ∧ a.slots[ref - 1]? = some e := by
  unfold get_wrapped
  by_cases h0 : ref = 0
  · simp [h0]
  · cases hs : a.slots[ref - 1]? <;> simp [h0]

theorem allocated_of_get_wrapped (a : UniqueStoreAllocator E) (ref : Nat) (e : UniqueStoreEntry E)
    (h : a.get_wrapped ref = .ok e) : a.Allocated ref := by
  obtain ⟨h0, hs⟩ := (get_wrapped_eq_ok a ref e).1 h
  obtain ⟨hlt, _⟩ := List.getElem?_eq_some.1 hs
  exact ⟨h0, by omega⟩

theorem get_eq_ok (a : UniqueStoreAllocator E) (ref : Nat) (v : E) :
    a.get ref = .ok v ↔ ∃ e, a.get_wrapped ref = .ok e ∧ e.value = v := by
  unfold get
  cases h : a.get_wrapped ref <;> simp

theorem get_of_get_wrapped (a : UniqueStoreAllocator E) (ref : Nat) (e : UniqueStoreEntry E)
    (h : a.get_wrapped ref = .ok e) : a.get ref = .ok e.value := by
  simp [get, h]

theorem get_of_allocated (a : UniqueStoreAllocator E) (ref : Nat) (h : a.Allocated ref) :
    ∃ v, a.get ref = .ok v := by
  obtain ⟨e, he, _⟩ := get_wrapped_of_allocated a ref h
  exact ⟨e.value, get_of_get_wrapped a ref e he⟩

/-- Entries of two allocators with the same storage are the same. -/
theorem get_wrapped_congr (a b : UniqueStoreAllocator E) (h : a.slots = b.slots) (ref : Nat) :
    a.get_wrapped ref = b.get_wrapped ref := by
  simp [get_wrapped, h]

theorem get_congr (a b : UniqueStoreAllocator E) (h : a.slots = b.slots) (ref : Nat) :
    a.get ref = b.get ref := by
  simp [get, get_wrapped_congr a b h]

/-- What `allocate` does on a well-formed allocator. -/
theorem allocate_spec (a : UniqueStoreAllocator E) (h : a.WF) (v : E) :
    (a.allocate v).2.WF ∧
    (a.allocate v).2.Allocated (a.allocate v).1 ∧
    (a.allocate v).2.get_wrapped (a.allocate v).1 = .ok ⟨v, 0⟩ ∧
    (a.allocate v).1 ∉ (a.allocate v).2.free_list ∧
    ((a.allocate v).1 ∈ a.free_list ∨ (a.allocate v).1 = a.slots.length + 1) ∧
    (∀ ref, ref ∈ (a.allocate v).2.free_list → ref ∈ a.free_list) ∧
    (∀ ref, a.Allocated ref → (a.allocate v).2.Allocated ref) ∧
    (∀ ref, a.Allocated ref → ref ≠ (a.allocate v).1 →
      (a.allocate v).2.get_wrapped ref = a.get_wrapped ref) := by
  obtain ⟨hnd, hfree⟩ := h
  unfold allocate
  cases hf : a.free_list with
  | nil =>
    simp only
    refine ⟨⟨by simp [hf], by simp [hf]⟩, ⟨by omega, by simp⟩, ?_, by simp [hf], by simp,
      by simp [hf], ?_, ?_⟩
    · simp [get_wrapped]
    · intro ref hr
      exact ⟨hr.1, by have := hr.2; simp; omega⟩
    · intro ref hr hne
      have hlt : ref - 1 < a.slots.length := by have := hr.1; have := hr.2; omega
      simp [get_wrapped, List.getElem?_append_left hlt]
  | cons r rest =>
    simp only
    rw [hf] at hnd hfree
    have hr : a.Allocated r := hfree r (by simp)
    have hlt : r - 1 < a.slots.length := by have := hr.1; have := hr.2; omega
    have hnd' := List.nodup_cons.1 hnd
    refine ⟨⟨hnd'.2, ?_⟩, ⟨hr.1, by simpa using hr.2⟩, ?_, hnd'.1, Or.inl (by simp),
      fun ref h' => by simp [h'], ?_, ?_⟩
    · intro ref hm
      have := hfree ref (by simp [hm])
      exact ⟨this.1, by simpa using this.2⟩
    · simp [get_wrapped, hr.1, List.getElem?_set_self hlt]
    · intro ref hr'
      exact ⟨hr'.1, by simpa using hr'.2⟩
    · intro ref hr' hne
      have hne' : r - 1 ≠ ref - 1 := by have := hr.1; have := hr'.1; omega
      simp [get_wrapped, List.getElem?_set_ne hne']

/-- What `inc_ref_count` does on a reference that has an entry. -/
theorem inc_ref_count_spec (a : UniqueStoreAllocator E) (ref : Nat) (e : UniqueStoreEntry E)
    (h : a.get_wrapped ref = .ok e) :
    ∃ a2, a.inc_ref_count ref = .ok a2 ∧
      a2.get_wrapped ref = .ok ⟨e.value, e.ref_count + 1⟩ ∧
      a2.slots.length = a.slots.length ∧
      a2.free_list = a.free_list ∧ a2.hold1 = a.hold1 ∧ a2.hold2 = a.hold2 ∧
      (∀ r, r ≠ ref → a2.get_wrapped r = a.get_wrapped r) ∧
      (∀ r, a2.get r = a.get r) := by
  have hal := allocated_of_get_wrapped a ref e h
  have hlt : ref - 1 < a.slots.length := by have := hal.1; have := hal.2; omega
  refine ⟨{ a with slots := a.slots.set (ref - 1) { e with ref_count := e.ref_count + 1 } },
    by simp [inc_ref_count, h], ?_, by simp, rfl, rfl, rfl, ?_, ?_⟩
  · simp [get_wrapped, hal.1, List.getElem?_set_self hlt]
  · intro r hne
    by_cases hr0 : r = 0
    · simp [get_wrapped, hr0]
    · have hne' : ref - 1 ≠ r - 1 := by have := hal.1; omega
      simp [get_wrapped, hr0, List.getElem?_set_ne hne']
  · intro r
    by_cases hr : r = ref
    · subst hr
      simp [get, get_wrapped, hal.1, List.getElem?_set_self hlt]
      rw [get_wrapped_eq_ok] at h
      simp [h.2]
    · by_cases hr0 : r = 0
      · simp [get, get_wrapped, hr0]
      · have hne' : ref - 1 ≠ r - 1 := by have := hal.1; omega
        simp [get, get_wrapped, hr0, List.getElem?_set_ne hne']

end UniqueStoreAllocator

/-! ## Comparator and dictionary lemmas -/

namespace ComparatorType

variable {E : Type} [LinearOrder E]

theorem less_ref_invalid (cmp : ComparatorType E) (a : UniqueStoreAllocator E) (ref : Nat) (x : E)
    (h0 : ref ≠ 0) (hx : a.get ref = .ok x) :
    cmp.less a ref 0 = .ok (decide (x < cmp.fallback_value)) := by
  simp [less, get, Index.valid, h0, hx]

theorem less_invalid_ref (cmp : ComparatorType E) (a : UniqueStoreAllocator E) (ref : Nat) (x : E)
    (h0 : ref ≠ 0) (hx : a.get ref = .ok x) :
    cmp.less a 0 ref = .ok (decide (cmp.fallback_value < x)) := by
  simp [less, get, Index.valid, h0, hx]

theorem less_congr (cmp : ComparatorType E) (a b : UniqueStoreAllocator E)
    (h : ∀ r, a.get r = b.get r) (lhs rhs : Nat) : cmp.less a lhs rhs = cmp.less b lhs rhs := by
  simp [less, get, h]

end ComparatorType

namespace UniqueStore

variable {E : Type} [LinearOrder E]

theorem lower_bound_congr (cmp : ComparatorType E) (a b : UniqueStoreAllocator E)
    (h : ∀ r, a.get r = b.get r) (d : List Nat) : lower_bound cmp a d = lower_bound cmp b d := by
  induction d with
  | nil => rfl
  | cons r rest ih => simp [lower_bound, ih, ComparatorType.less_congr cmp a b h]

/-- The lower bound splits a dictionary of allocated references: every reference before the
split has a value below the lookup value, the first one after it does not. -/
theorem lower_bound_spec (cmp : ComparatorType E) (a : UniqueStoreAllocator E) (d : List Nat)
    (hd : ∀ r ∈ d, a.Allocated r) :
    ∃ lo hi, lower_bound cmp a d = .ok (lo, hi) ∧ d = lo ++ hi ∧
      (∀ r ∈ lo, ∃ x, a.get r = .ok x ∧ x < cmp.fallback_value) ∧
      (∀ r tl, hi = r :: tl → ∃ x, a.get r = .ok x ∧ ¬ x < cmp.fallback_value) := by
  induction d with
  | nil => exact ⟨[], [], rfl, rfl, by simp, by simp⟩
  | cons r rest ih =>
    have hr : a.Allocated r := hd r (by simp)
    obtain ⟨x, hx⟩ := a.get_of_allocated r hr
    obtain ⟨lo, hi, hlb, hsplit, hlo, hhi⟩ := ih (fun r' h' => hd r' (by simp [h']))
    by_cases hlt : x < cmp.fallback_value
    · refine ⟨r :: lo, hi, ?_, by simp [hsplit], ?_, hhi⟩
      · simp [lower_bound, ComparatorType.less_ref_invalid cmp a r x hr.1 hx, hlt, hlb]
      · intro r' h'
        rcases List.mem_cons.1 h' with h1 | h1
        · exact ⟨x, h1 ▸ hx, hlt⟩
        · exact hlo r' h1
    · refine ⟨[], r :: rest, ?_, rfl, by simp, ?_⟩
      · simp [lower_bound, ComparatorType.less_ref_invalid cmp a r x hr.1 hx, hlt]
      · intro r' tl h'
        obtain ⟨h1, _⟩ := List.cons.inj h'
        exact ⟨x, h1 ▸ hx, hlt⟩

/-- Converse of `lower_bound_spec`: values below the lookup value are skipped. -/
theorem lower_bound_append (cmp : ComparatorType E) (a : UniqueStoreAllocator E)
    (lo : List Nat) (r : Nat) (hi : List Nat) (w : E)
    (hlo : ∀ r' ∈ lo, r' ≠ 0 ∧ ∃ x, a.get r' = .ok x ∧ x < cmp.fallback_value)
    (hr0 : r ≠ 0) (hr : a.get r = .ok w) (hw : ¬ w < cmp.fallback_value) :
    lower_bound cmp a (lo ++ r :: hi) = .ok (lo, r :: hi) := by
  induction lo with
  | nil => simp [lower_bound, ComparatorType.less_ref_invalid cmp a r w hr0 hr, hw]
  | cons r' rest ih =>
    obtain ⟨h0, x, hx, hlt⟩ := hlo r' (by simp)
    have := ih (fun r'' h'' => hlo r'' (by simp [h'']))
    simp [lower_bound, ComparatorType.less_ref_invalid cmp a r' x h0 hx, hlt, this]

/-- Outcome of `UniqueStore::add` on a well-formed store: a hit on an entry holding the value,
or a miss that allocates a slot absent from the dictionary; either way the reference count of
the entry goes up by one. -/
theorem add_spec (s : UniqueStore E) (h : s.WF) (v : E) :
    ∃ ref s1 rc, s.add v = .ok (⟨ref, decide (ref ∉ s.dict)⟩, s1) ∧ s1.WF ∧
      s1.allocator.get_wrapped ref = .ok ⟨v, rc + 1⟩ ∧ ref ∈ s1.dict ∧
      (∃ lo hi, s1.dict = lo ++ ref :: hi ∧
        ∀ r' ∈ lo, r' ≠ 0 ∧ ∃ x, s1.allocator.get r' = .ok x ∧ x < v) ∧
      (ref ∈ s.dict → s.allocator.get_wrapped ref = .ok ⟨v, rc⟩ ∧ s1.dict = s.dict ∧
        s1.allocator.slots.length = s.allocator.slots.length ∧
        s1.allocator.free_list = s.allocator.free_list ∧
        ∀ r, s1.allocator.get r = s.allocator.get r) ∧
      (ref ∉ s.dict → rc = 0 ∧ (s.allocator.allocate v).1 = ref) := by
  obtain ⟨hwf, hdict⟩ := h
  obtain ⟨lo, hi, hlb, hsplit, hlo, hhi⟩ :=
    lower_bound_spec ⟨v⟩ s.allocator s.dict (fun r hr => (hdict r hr).1)
  -- facts about a miss, shared by the two miss branches
  have miss : ∀ hi', hi = hi' →
      s.dict_add ⟨v⟩ (fun a => a.allocate v) =
        .ok (⟨(s.allocator.allocate v).1, true⟩,
          ⟨(s.allocator.allocate v).2, lo ++ (s.allocator.allocate v).1 :: hi⟩) →
      ∃ ref s1 rc, s.add v = .ok (⟨ref, decide (ref ∉ s.dict)⟩, s1) ∧ s1.WF ∧
        s1.allocator.get_wrapped ref = .ok ⟨v, rc + 1⟩ ∧ ref ∈ s1.dict ∧
        (∃ lo hi, s1.dict = lo ++ ref :: hi ∧
          ∀ r' ∈ lo, r' ≠ 0 ∧ ∃ x, s1.allocator.get r' = .ok x ∧ x < v) ∧
        (ref ∈ s.dict → s.allocator.get_wrapped ref = .ok ⟨v, rc⟩ ∧ s1.dict = s.dict ∧
          s1.allocator.slots.length = s.allocator.slots.length ∧
          s1.allocator.free_list = s.allocator.free_list ∧
          ∀ r, s1.allocator.get r = s.allocator.get r) ∧
        (ref ∉ s.dict → rc = 0 ∧ (s.allocator.allocate v).1 = ref) := by
    intro hi' _ hadd
    obtain ⟨hwf1, hal1, hget1, hnf1, horig, hfsub, halmono, hsame⟩ :=
      UniqueStoreAllocator.allocate_spec s.allocator hwf v
    obtain ⟨a2, hinc, hget2, hlen2, hfree2, _, _, hother2, hval2⟩ :=
      UniqueStoreAllocator.inc_ref_count_spec _ _ _ hget1
    have hnotin : (s.allocator.allocate v).1 ∉ s.dict := by
      intro hmem
      obtain ⟨hal, hnf⟩ := hdict _ hmem
      rcases horig with h1 | h1
      · exact hnf h1
      · have := hal.2; omega
    have hold : ∀ r ∈ s.dict, a2.get_wrapped r = s.allocator.get_wrapped r := by
      intro r hr
      have hne : r ≠ (s.allocator.allocate v).1 := fun he => hnotin (he ▸ hr)
      rw [hother2 r hne, hsame r (hdict r hr).1 hne]
    refine ⟨(s.allocator.allocate v).1, ⟨a2, lo ++ (s.allocator.allocate v).1 :: hi⟩, 0, ?_, ?_,
      hget2, by simp, ⟨lo, hi, rfl, ?_⟩, fun hmem => absurd hmem hnotin, fun _ => ⟨rfl, rfl⟩⟩
    · simp [add, hadd, hinc, hnotin]
    · refine ⟨⟨by rw [hfree2]; exact hwf1.1, ?_⟩, ?_⟩
      · intro r hr
        rw [hfree2] at hr
        have := hwf1.2 r hr
        exact ⟨this.1, by rw [hlen2]; exact this.2⟩
      · intro r hr
        simp only at hr
        have hcases : r = (s.allocator.allocate v).1 ∨ r ∈ s.dict := by
          rw [hsplit]
          rcases List.mem_append.1 hr with h1 | h1
          · exact Or.inr (List.mem_append.2 (Or.inl h1))
          · rcases List.mem_cons.1 h1 with h2 | h2
            · exact Or.inl h2
            · exact Or.inr (List.mem_append.2 (Or.inr h2))
        simp only
        rw [hfree2]
        rcases hcases with h1 | h1
        · rw [h1]
          exact ⟨⟨hal1.1, by rw [hlen2]; exact hal1.2⟩, hnf1⟩
        · have := halmono r (hdict r h1).1
          exact ⟨⟨this.1, by rw [hlen2]; exact this.2⟩, fun hm => (hdict r h1).2 (hfsub r hm)⟩
    · intro r' hr'
      have hmem : r' ∈ s.dict := by rw [hsplit]; exact List.mem_append.2 (Or.inl hr')
      obtain ⟨x, hx, hlt⟩ := hlo r' hr'
      refine ⟨(hdict r' hmem).1.1, x, ?_, hlt⟩
      obtain ⟨e, he, hev⟩ := (UniqueStoreAllocator.get_eq_ok _ _ _).1 hx
      exact (UniqueStoreAllocator.get_eq_ok _ _ _).2 ⟨e, by simpa [hold r' hmem] using he, hev⟩
  cases hi with
  | nil =>
    exact miss [] rfl (by simp [dict_add, hlb])
  | cons r tl =>
    obtain ⟨x, hx, hnlt⟩ := hhi r tl rfl
    have hrmem : r ∈ s.dict := by rw [hsplit]; simp
    have hr0 : r ≠ 0 := (hdict r hrmem).1.1
    have hless := ComparatorType.less_invalid_ref ⟨v⟩ s.allocator r x hr0 hx
    by_cases hgt : v < x
    · exact miss (r :: tl) rfl (by simp [dict_add, hlb, hless, hgt])
    · -- hit: the entry at the lower bound holds `v`
      have hxv : x = v := le_antisymm (not_lt.1 hgt) (not_lt.1 hnlt)
      subst hxv
      obtain ⟨⟨ev, rc⟩, he, hev⟩ := (UniqueStoreAllocator.get_eq_ok _ _ _).1 hx
      simp only at hev
      subst hev
      obtain ⟨a2, hinc, hget2, hlen2, hfree2, _, _, hother2, hval2⟩ :=
        UniqueStoreAllocator.inc_ref_count_spec _ _ _ he
      have hadd : s.dict_add ⟨ev⟩ (fun a => a.allocate ev) = .ok (⟨r, false⟩, s) := by
        simp [dict_add, hlb, hless]
      refine ⟨r, ⟨a2, s.dict⟩, rc, ?_, ?_, hget2, hrmem, ⟨lo, tl, hsplit, ?_⟩,
        fun _ => ⟨he, rfl, hlen2, hfree2, hval2⟩, fun hn => absurd hrmem hn⟩
      · simp [add, hadd, hinc, hrmem]
      · refine ⟨⟨by rw [hfree2]; exact hwf.1, ?_⟩, ?_⟩
        · intro r' hr'
          rw [hfree2] at hr'
          have := hwf.2 r' hr'
          exact ⟨this.1, by rw [hlen2]; exact this.2⟩
        · intro r' hr'
          have := hdict r' hr'
          exact ⟨⟨this.1.1, by rw [hlen2]; exact this.1.2⟩, by rw [hfree2]; exact this.2⟩
      · intro r' hr'
        have hmem : r' ∈ s.dict := by rw [hsplit]; exact List.mem_append.2 (Or.inl hr')
        obtain ⟨y, hy, hlt⟩ := hlo r' hr'
        exact ⟨(hdict r' hmem).1.1, y, by rw [hval2]; exact hy, hlt⟩

/-- A lookup value whose entry is in the dictionary, behind references of smaller values only, is
a hit: `add` returns the entry's reference and only raises its reference count. -/
theorem add_hit (s : UniqueStore E) (v : E) (lo hi : List Nat) (ref rc : Nat)
    (hsplit : s.dict = lo ++ ref :: hi)
    (hlo : ∀ r' ∈ lo, r' ≠ 0 ∧ ∃ x, s.allocator.get r' = .ok x ∧ x < v)
    (hget : s.allocator.get_wrapped ref = .ok ⟨v, rc⟩) :
    ∃ a2, s.add v = .ok (⟨ref, false⟩, ⟨a2, s.dict⟩) ∧
      a2.get_wrapped ref = .ok ⟨v, rc + 1⟩ ∧
      a2.slots.length = s.allocator.slots.length ∧
      a2.free_list = s.allocator.free_list ∧ a2.hold1 = s.allocator.hold1 ∧
      a2.hold2 = s.allocator.hold2 ∧
      (∀ r, a2.get r = s.allocator.get r) := by
  have hr0 : ref ≠ 0 := (UniqueStoreAllocator.allocated_of_get_wrapped _ _ _ hget).1
  have hval : s.allocator.get ref = .ok v := UniqueStoreAllocator.get_of_get_wrapped _ _ _ hget
  have hlb : lower_bound ⟨v⟩ s.allocator s.dict = .ok (lo, ref :: hi) := by
    rw [hsplit]
    exact lower_bound_append ⟨v⟩ s.allocator lo ref hi v hlo hr0 hval (lt_irrefl v)
  have hless := ComparatorType.less_invalid_ref ⟨v⟩ s.allocator ref v hr0 hval
  obtain ⟨a2, hinc, hget2, hlen2, hfree2, hh1, hh2, _, hval2⟩ :=
    UniqueStoreAllocator.inc_ref_count_spec _ _ _ hget
  have hadd : s.dict_add ⟨v⟩ (fun a => a.allocate v) = .ok (⟨ref, false⟩, s) := by
    simp [dict_add, hlb, hless]
  exact ⟨a2, by simp [add, hadd, hinc], hget2, hlen2, hfree2, hh1, hh2, hval2⟩

end UniqueStore

/-! ## Insert and lookup -/

namespace EnumStoreT

variable {E : Type} [LinearOrder E]

/-- Inserting two values `a < b` and then `a` again into an empty store. -/
theorem insert_three (a b : E) (hab : a < b) :
    ∃ s1 s2 s3 : EnumStoreT E,
      mk_empty.insert a = .ok (1, s1) ∧ s1.insert b = .ok (2, s2) ∧ s2.insert a = .ok (1, s3) ∧
      s3._store.dict = [1, 2] ∧ s3._store.allocator.slots = [⟨a, 2⟩, ⟨b, 1⟩] ∧
      s3._store.allocator.free_list = [] := by
  have hba : ¬ b < a := not_lt.2 hab.le
  refine ⟨⟨⟨⟨[⟨a, 1⟩], [], [], []⟩, [1]⟩, ⟨0, 0⟩, ⟨0, 0, 2 ^ 32⟩⟩,
    ⟨⟨⟨[⟨a, 1⟩, ⟨b, 1⟩], [], [], []⟩, [1, 2]⟩, ⟨0, 0⟩, ⟨0, 0, 2 ^ 32⟩⟩,
    ⟨⟨⟨[⟨a, 2⟩, ⟨b, 1⟩], [], [], []⟩, [1, 2]⟩, ⟨0, 0⟩, ⟨0, 0, 2 ^ 32⟩⟩, ?_, ?_, ?_, rfl, rfl, rfl⟩
  · simp [insert, mk_empty, UniqueStore.add, UniqueStore.dict_add, UniqueStore.lower_bound,
      UniqueStore.empty, UniqueStoreAllocator.empty, UniqueStoreAllocator.allocate,
      UniqueStoreAllocator.inc_ref_count, UniqueStoreAllocator.get_wrapped]
  · simp [insert, UniqueStore.add, UniqueStore.dict_add, UniqueStore.lower_bound,
      UniqueStoreAllocator.allocate, UniqueStoreAllocator.inc_ref_count,
      UniqueStoreAllocator.get_wrapped, UniqueStoreAllocator.get, ComparatorType.less,
      ComparatorType.get, Index.valid, hab]
  · simp [insert, UniqueStore.add, UniqueStore.dict_add, UniqueStore.lower_bound,
      UniqueStoreAllocator.allocate, UniqueStoreAllocator.inc_ref_count,
      UniqueStoreAllocator.get_wrapped, UniqueStoreAllocator.get, ComparatorType.less,
      ComparatorType.get, Index.valid, hab, hba]

/-- C1 (insert/find round trip): on every well-formed store and for every value `v`, `insert(v)`
returns a valid `Index`, and `getValue` on that `Index` returns true and writes a value equal to
`v` into the output parameter, whatever it held before. -/
theorem insert_getValue_round_trip (s : EnumStoreT E) (h : s._store.WF) (v out : E) :
    ∃ idx s1, s.insert v = .ok (idx, s1) ∧ Index.valid idx = true ∧
      s1.getValue idx out = .ok (true, v) := by
  obtain ⟨ref, st, rc, hadd, hwf1, hget, -⟩ := UniqueStore.add_spec s._store h v
  have hr0 : ref ≠ 0 := (UniqueStoreAllocator.allocated_of_get_wrapped _ _ _ hget).1
  refine ⟨ref, { s with _store := st }, by simp [insert, hadd], by simp [Index.valid, hr0], ?_⟩
  have hval := UniqueStoreAllocator.get_of_get_wrapped _ _ _ hget
  simp [getValue, Index.valid, hr0, hval]

/-- Witness for C1: a store holding 7, with one freed slot waiting on the free list. -/
theorem insert_getValue_round_trip_witness :
    (⟨⟨⟨[⟨7, 1⟩, ⟨3, 0⟩], [2], [], []⟩, [1]⟩, ⟨0, 0⟩, ⟨0, 0, 2 ^ 32⟩⟩ : EnumStoreT Nat)._store.WF ∧
    ∃ idx s1,
      (⟨⟨⟨[⟨7, 1⟩, ⟨3, 0⟩], [2], [], []⟩, [1]⟩, ⟨0, 0⟩, ⟨0, 0, 2 ^ 32⟩⟩ : EnumStoreT Nat).insert 5
        = .ok (idx, s1) ∧
      Index.valid idx = true ∧ s1.getValue idx 0 = .ok (true, 5) :=
  ⟨by decide, insert_getValue_round_trip _ (by decide) 5 0⟩

/-- C2 (deduplication): on every well-formed store, inserting a value and then an equal value
returns the same `Index` both times; the second insert leaves the dictionary, the number of
slots, the free list and every stored value as they were, and raises the reference count of the
entry by one.  Inserting "apple", "banana", "apple" into an empty store yields exactly two
entries, with reference counts 2 and 1. -/
theorem insert_deduplicates :
    (∀ (E : Type) [LinearOrder E] (s : EnumStoreT E), s._store.WF → ∀ v1 v2 : E, v1 = v2 →
      ∃ idx s1 s2 rc1 rc2, s.insert v1 = .ok (idx, s1) ∧ s1.insert v2 = .ok (idx, s2) ∧
        s2._store.dict = s1._store.dict ∧
        s2._store.allocator.slots.length = s1._store.allocator.slots.length ∧
        s2._store.allocator.free_list = s1._store.allocator.free_list ∧
        (∀ r, s2._store.allocator.get r = s1._store.allocator.get r) ∧
        s1.get_ref_count idx = .ok rc1 ∧ s2.get_ref_count idx = .ok rc2 ∧
        rc1 < rc2 ∧ rc2 = rc1 + 1) ∧
    (∃ s1 s2 s3 : EnumStoreT String,
      mk_empty.insert "apple" = .ok (1, s1) ∧ s1.insert "banana" = .ok (2, s2) ∧
      s2.insert "apple" = .ok (1, s3) ∧ s3._store.dict = [1, 2] ∧
      s3._store.allocator.slots = [⟨"apple", 2⟩, ⟨"banana", 1⟩] ∧
      s3._store.allocator.free_list = []) := by
  refine ⟨?_, insert_three "apple" "banana" (by rw [String.lt_iff_toList_lt]; decide)⟩
  intro E _ s h v1 v2 hv
  subst hv
  obtain ⟨ref, st, rc, hadd, hwf1, hget, _, ⟨lo, hi, hsplit, hlo⟩, -⟩ :=
    UniqueStore.add_spec s._store h v1
  obtain ⟨a2, hadd2, hget2, hlen2, hfree2, _, _, hval2⟩ :=
    UniqueStore.add_hit st v1 lo hi ref (rc + 1) hsplit hlo hget
  refine ⟨ref, { s with _store := st }, { s with _store := ⟨a2, st.dict⟩ }, rc + 1, rc + 2,
    by simp [insert, hadd], by simp [insert, hadd2], rfl, hlen2, hfree2, hval2, ?_, ?_,
    by omega, rfl⟩
  · simp [get_ref_count, hget]
  · simp [get_ref_count, hget2]

/-- Witness for C2: the value 7 is already stored, one freed slot waits on the free list. -/
theorem insert_deduplicates_witness :
    (⟨⟨⟨[⟨7, 1⟩, ⟨3, 0⟩], [2], [], []⟩, [1]⟩, ⟨0, 0⟩, ⟨0, 0, 2 ^ 32⟩⟩ : EnumStoreT Nat)._store.WF ∧
    ∃ idx s1 s2 rc1 rc2,
      (⟨⟨⟨[⟨7, 1⟩, ⟨3, 0⟩], [2], [], []⟩, [1]⟩, ⟨0, 0⟩, ⟨0, 0, 2 ^ 32⟩⟩ : EnumStoreT Nat).insert 9
        = .ok (idx, s1) ∧
      s1.insert 9 = .ok (idx, s2) ∧
      s2._store.dict = s1._store.dict ∧
      s2._store.allocator.slots.length = s1._store.allocator.slots.length ∧
      s2._store.allocator.free_list = s1._store.allocator.free_list ∧
      (∀ r, s2._store.allocator.get r = s1._store.allocator.get r) ∧
      s1.get_ref_count idx = .ok rc1 ∧ s2.get_ref_count idx = .ok rc2 ∧
      rc1 < rc2 ∧ rc2 = rc1 + 1 :=
  ⟨by decide, insert_deduplicates.1 Nat _ (by decide) 9 9 rfl⟩

end EnumStoreT

/-! ## Bulk load -/

namespace EnumStoreT

variable {E : Type} [LinearOrder E]

/-- One call of `load_unique_value` on a buffer holding at least one record: the value read is
allocated; the call aborts exactly when a previous record exists and is not below the value. -/
theorem load_unique_value_step (c : EntryLayout E) (s : EnumStoreT E) (p : List Byte) (idx1 : Nat)
    (prev : Option E) (hwf : s._store.allocator.WF) (hinv : s.LoopInv idx1 prev)
    (hlen : c.size ≤ p.length) :
    (s._store.allocator.allocate (c.read (p.take c.size))).2.WF ∧
    (s.with_allocator (s._store.allocator.allocate (c.read (p.take c.size))).2).LoopInv
      (s._store.allocator.allocate (c.read (p.take c.size))).1 (some (c.read (p.take c.size))) ∧
    load_unique_value c s p idx1 =
      if (∀ x, prev = some x → x < c.read (p.take c.size)) then
        .ok ((c.size : Int), (s._store.allocator.allocate (c.read (p.take c.size))).1,
          s.with_allocator (s._store.allocator.allocate (c.read (p.take c.size))).2)
      else .error .assertion := by
  obtain ⟨hwf1, hal1, hget1, hnf1, horig, hfsub, halmono, hsame⟩ :=
    UniqueStoreAllocator.allocate_spec s._store.allocator hwf (c.read (p.take c.size))
  refine ⟨hwf1, ⟨hal1, hnf1, UniqueStoreAllocator.get_of_get_wrapped _ _ _ hget1⟩, ?_⟩
  have hnlt : ¬ p.length < c.size := by omega
  cases prev with
  | none =>
    have h0 : idx1 = 0 := hinv
    simp [load_unique_value, hnlt, h0, Index.valid, with_allocator]
  | some x =>
    obtain ⟨hal, hnf, hx⟩ := hinv
    have hne : idx1 ≠ (s._store.allocator.allocate (c.read (p.take c.size))).1 := by
      intro he
      rcases horig with h1 | h1
      · exact hnf (he ▸ h1)
      · have := hal.2; omega
    have hx1 : (s._store.allocator.allocate (c.read (p.take c.size))).2.get idx1 = .ok x := by
      obtain ⟨e, he, hev⟩ := (UniqueStoreAllocator.get_eq_ok _ _ _).1 hx
      exact (UniqueStoreAllocator.get_eq_ok _ _ _).2 ⟨e, by rw [hsame idx1 hal hne]; exact he, hev⟩
    have hless := ComparatorType.less_ref_invalid ⟨c.read (p.take c.size)⟩
      (s._store.allocator.allocate (c.read (p.take c.size))).2 idx1 x hal.1 hx1
    have hv : Index.valid idx1 = true := by simp [Index.valid, hal.1]
    by_cases hlt : x < c.read (p.take c.size)
    · simp [load_unique_value, hnlt, hv, hless, make_comparator, hlt, with_allocator]
    · simp [load_unique_value, hnlt, hv, hless, make_comparator, hlt]

/-- The loop of `load_unique_values_internal` on a buffer of `n` records followed by `t` bytes,
`t` less than a record: it aborts exactly when the records, the previous one included, are not
strictly ascending; otherwise it allocates the records in order and returns `available` (no
tail) or -1 (tail). -/
theorem load_unique_values_loop_spec (c : EntryLayout E) (available : Nat) (n : Nat) :
    ∀ (fuel : Nat) (s : EnumStoreT E) (p : List Byte) (idx1 : Nat) (idx : IndexVector)
      (prev : Option E) (t : Nat),
      s._store.allocator.WF → s.LoopInv idx1 prev → p.length = n * c.size + t → t < c.size →
      p.length ≤ fuel →
      load_unique_values_loop c available fuel s p idx1 idx =
        if List.Chain' (· < ·) (prev.toList ++ c.records n p) then
          .ok (if t = 0 then (available : Int) else -1,
            idx ++ (s._store.allocator.allocate_all (c.records n p)).1,
            s.with_allocator (s._store.allocator.allocate_all (c.records n p)).2)
        else .error .assertion := by
  induction n with
  | zero =>
    intro fuel s p idx1 idx prev t hwf hinv hlen ht hfuel
    have hchain : List.Chain' (· < ·) (prev.toList ++ c.records 0 p) := by
      cases prev <;> simp [EntryLayout.records]
    rw [if_pos hchain]
    have hself : s.with_allocator s._store.allocator = s := rfl
    simp only [EntryLayout.records, UniqueStoreAllocator.allocate_all, List.append_nil, hself]
    simp only [Nat.zero_mul, Nat.zero_add] at hlen
    by_cases ht0 : t = 0
    · have hp : p.length = 0 := by omega
      cases fuel <;> simp [load_unique_values_loop, hp, ht0]
    · obtain ⟨f, rfl⟩ : ∃ f, fuel = f + 1 := ⟨fuel - 1, by omega⟩
      have hpos : 0 < p.length := by omega
      have hlt : p.length < c.size := by omega
      simp [load_unique_values_loop, hpos, load_unique_value, hlt, ht0]
  | succ n ih =>
    intro fuel s p idx1 idx prev t hwf hinv hlen ht hfuel
    have hsz := c.size_pos
    have hlen' : p.length = n * c.size + c.size + t := by rw [hlen, Nat.succ_mul]
    have hge : c.size ≤ p.length := by omega
    obtain ⟨f, rfl⟩ : ∃ f, fuel = f + 1 := ⟨fuel - 1, by omega⟩
    have hpos : 0 < p.length := by omega
    obtain ⟨hwf1, hinv1, hstep⟩ := load_unique_value_step c s p idx1 prev hwf hinv hge
    have hdrop : (p.drop c.size).length = n * c.size + t := by
      rw [List.length_drop]; omega
    have hrec := ih f (s.with_allocator (s._store.allocator.allocate (c.read (p.take c.size))).2)
      (p.drop c.size) (s._store.allocator.allocate (c.read (p.take c.size))).1
      (idx ++ [(s._store.allocator.allocate (c.read (p.take c.size))).1])
      (some (c.read (p.take c.size))) t hwf1 hinv1 hdrop ht (by omega)
    have hnn : ¬ ((c.size : Int) < 0) := by omega
    by_cases hprev : ∀ x, prev = some x → x < c.read (p.take c.size)
    · rw [if_pos hprev] at hstep
      have hiff : List.Chain' (· < ·) (prev.toList ++ c.records (n + 1) p) ↔
          List.Chain' (· < ·) ((some (c.read (p.take c.size))).toList ++
            c.records n (p.drop c.size)) := by
        cases prev with
        | none => simp [EntryLayout.records]
        | some x =>
          have := hprev x rfl
          simp [EntryLayout.records, List.chain'_cons, this]
      simp only [load_unique_values_loop, hpos, if_true, hstep, hnn, if_false, Int.toNat_ofNat,
        hrec, hiff]
      simp [EntryLayout.records, UniqueStoreAllocator.allocate_all, with_allocator]
    · rw [if_neg hprev] at hstep
      have hnchain : ¬ List.Chain' (· < ·) (prev.toList ++ c.records (n + 1) p) := by
        cases prev with
        | none => simp at hprev
        | some x =>
          have hx : ¬ x < c.read (p.take c.size) := by simpa using hprev
          simp [EntryLayout.records, List.chain'_cons, hx]
      simp [load_unique_values_loop, hpos, hstep, hnchain]

end EnumStoreT

namespace UniqueStoreAllocator

variable {E : Type}

theorem allocate_length_le (a : UniqueStoreAllocator E) (v : E) :
    a.slots.length ≤ (a.allocate v).2.slots.length := by
  unfold allocate
  cases a.free_list <;> simp

/-- Allocating a list of values on a well-formed allocator: one fresh reference per value, each
resolving to its value afterwards, and nothing that was live before is touched. -/
theorem allocate_all_spec (vs : List E) :
    ∀ a : UniqueStoreAllocator E, a.WF →
      (a.allocate_all vs).2.WF ∧
      a.slots.length ≤ (a.allocate_all vs).2.slots.length ∧
      (∀ r ∈ (a.allocate_all vs).1, (a.allocate_all vs).2.Allocated r ∧
        r ∉ (a.allocate_all vs).2.free_list ∧ (r ∈ a.free_list ∨ a.slots.length < r)) ∧
      (a.allocate_all vs).1.Nodup ∧
      List.Forall₂ (fun r v => (a.allocate_all vs).2.get_wrapped r = .ok ⟨v, 0⟩)
        (a.allocate_all vs).1 vs ∧
      (∀ r, a.Allocated r → r ∉ a.free_list →
        (a.allocate_all vs).2.get_wrapped r = a.get_wrapped r ∧
        r ∉ (a.allocate_all vs).2.free_list) ∧
      (∀ r, a.Allocated r → (a.allocate_all vs).2.Allocated r) ∧
      (∀ r ∈ (a.allocate_all vs).2.free_list, r ∈ a.free_list) ∧
      (a.allocate_all vs).2.hold1 = a.hold1 ∧ (a.allocate_all vs).2.hold2 = a.hold2 := by
  induction vs with
  | nil =>
    intro a h
    exact ⟨h, le_refl _, by simp [allocate_all], by simp [allocate_all],
      by simp [allocate_all], fun r _ hr => ⟨rfl, hr⟩, fun r hr => hr, fun r hr => hr, rfl, rfl⟩
  | cons v vs ih =>
    intro a h
    obtain ⟨hwf1, hal1, hget1, hnf1, horig, hfsub, halmono, hsame⟩ := allocate_spec a h v
    have hlen1 := allocate_length_le a v
    obtain ⟨hwf2, hlen2, hrefs, hnd, hall, hkeep, hmono, hsub, hh1, hh2⟩ :=
      ih (a.allocate v).2 hwf1
    have hhold : (a.allocate v).2.hold1 = a.hold1 ∧ (a.allocate v).2.hold2 = a.hold2 := by
      unfold allocate
      cases a.free_list <;> simp
    simp only [allocate_all]
    refine ⟨hwf2, le_trans hlen1 hlen2, ?_, ?_, ?_, ?_, fun r hr => hmono r (halmono r hr),
      fun r hr => hfsub r (hsub r hr), hh1.trans hhold.1, hh2.trans hhold.2⟩
    · intro r hr
      rcases List.mem_cons.1 hr with h1 | h1
      · subst h1
        refine ⟨hmono _ hal1, (hkeep _ hal1 hnf1).2, ?_⟩
        rcases horig with h2 | h2
        · exact Or.inl h2
        · exact Or.inr (by omega)
      · obtain ⟨h2, h3, h4⟩ := hrefs r h1
        refine ⟨h2, h3, ?_⟩
        rcases h4 with h5 | h5
        · exact Or.inl (hfsub r h5)
        · exact Or.inr (by omega)
    · refine List.nodup_cons.2 ⟨?_, hnd⟩
      intro hmem
      obtain ⟨_, _, h4⟩ := hrefs _ hmem
      rcases h4 with h5 | h5
      · exact hnf1 h5
      · have := hal1.2; omega
    · refine List.Forall₂.cons ?_ hall
      rw [(hkeep _ hal1 hnf1).1]
      exact hget1
    · intro r hr hnf
      have hne : r ≠ (a.allocate v).1 := by
        intro he
        rcases horig with h2 | h2
        · exact hnf (he ▸ h2)
        · have := hr.2; omega
      have hnf' : r ∉ (a.allocate v).2.free_list := fun hm => hnf (hfsub r hm)
      obtain ⟨h1, h2⟩ := hkeep r (halmono r hr) hnf'
      exact ⟨h1.trans (hsame r hr hne), h2⟩

end UniqueStoreAllocator

namespace UniqueStore

variable {E : Type} [LinearOrder E]

/-- The order check of `build` passes on references whose values are strictly ascending. -/
theorem build_sorted_ok (a : UniqueStoreAllocator E) (refs : List Nat) (vs : List E)
    (hall : List.Forall₂ (fun r v => a.get r = .ok v) refs vs)
    (hasc : List.Chain' (· < ·) vs) : build_sorted a refs = .ok () := by
  induction hall with
  | nil => rfl
  | @cons r v rs vs' hr hrest ih =>
    cases hrest with
    | nil => simp [build_sorted, hr]
    | @cons r2 v2 rs2 vs2 hr2 hrest2 =>
      have h12 := (List.chain'_cons.1 hasc).1
      have := ih (List.chain'_cons.1 hasc).2
      simp [build_sorted, hr, hr2, h12, this]

end UniqueStore

namespace EntryLayout

variable {E : Type}

theorem length_encode (c : EntryLayout E) (vs : List E) :
    (c.encode vs).length = vs.length * c.size := by
  induction vs with
  | nil => simp [encode]
  | cons v vs ih => simp [encode, ih, c.write_length, Nat.succ_mul, Nat.add_comm]

theorem records_encode (c : EntryLayout E) (vs : List E) :
    c.records vs.length (c.encode vs) = vs := by
  induction vs with
  | nil => rfl
  | cons v vs ih =>
    have h1 : (c.write v ++ c.encode vs).take c.size = c.write v := by
      rw [← c.write_length v]; exact List.take_left' rfl
    have h2 : (c.write v ++ c.encode vs).drop c.size = c.encode vs := by
      rw [← c.write_length v]; exact List.drop_left' rfl
    simp [records, encode, h1, h2, c.read_write, ih]

end EntryLayout

/-- A list is a chain exactly when every two neighbours are related. -/
theorem chain'_iff_neighbours {α : Type} (R : α → α → Prop) (l : List α) :
    List.Chain' R l ↔ ∀ k x y, l[k]? = some x → l[k + 1]? = some y → R x y := by
  induction l with
  | nil => simp
  | cons a l ih =>
    cases l with
    | nil => simp
    | cons b l =>
      rw [List.chain'_cons, ih]
      constructor
      · rintro ⟨hab, hrest⟩ k x y hx hy
        cases k with
        | zero =>
          simp at hx hy
          subst hx; subst hy
          exact hab
        | succ k => exact hrest k x y (by simpa using hx) (by simpa using hy)
      · intro h
        exact ⟨h 0 a b (by simp) (by simp),
          fun k x y hx hy => h (k + 1) x y (by simpa using hx) (by simpa using hy)⟩

namespace EnumStoreT

variable {E : Type}

theorem mk_empty_wf : (mk_empty : EnumStoreT E)._store.allocator.WF := by
  simp [mk_empty, UniqueStore.empty, UniqueStoreAllocator.empty, UniqueStoreAllocator.WF]

/-- Values resolved through `get` after `allocate_all`. -/
theorem allocate_all_get (a : UniqueStoreAllocator E) (h : a.WF) (vs : List E) :
    List.Forall₂ (fun r v => (a.allocate_all vs).2.get r = .ok v) (a.allocate_all vs).1 vs := by
  obtain ⟨-, -, -, -, hall, -⟩ := UniqueStoreAllocator.allocate_all_spec vs a h
  exact List.Forall₂.imp (fun _ _ hrv => UniqueStoreAllocator.get_of_get_wrapped _ _ _ hrv) hall

theorem length_records (c : EntryLayout E) (n : Nat) : ∀ src, (c.records n src).length = n := by
  induction n with
  | zero => intro src; rfl
  | succ n ih => intro src; simp [EntryLayout.records, ih]

theorem neighbours_of_append (xs ys : List E) (x y : E) :
    (xs ++ x :: y :: ys)[xs.length]? = some x ∧ (xs ++ x :: y :: ys)[xs.length + 1]? = some y := by
  constructor
  · rw [List.getElem?_append_right (le_refl _)]; simp
  · rw [List.getElem?_append_right (Nat.le_succ _)]; simp

/-- Writing the values of references that resolve to `vals` appends the persisted form of
`vals`. -/
theorem write_values_eq (c : EntryLayout E) (s : EnumStoreT E) (idxs : List Nat) (vals : List E)
    (hvals : List.Forall₂ (fun i v => Index.valid i = true ∧ s._store.allocator.get i = .ok v)
      idxs vals) :
    ∀ writer, write_values c s writer idxs = .ok (writer ++ c.encode vals) := by
  induction hvals with
  | nil => intro writer; simp [write_values, EntryLayout.encode]
  | cons h _ ih =>
    intro writer
    simp [write_values, write_value, h.2, ih, EntryLayout.encode]

end EnumStoreT

/-! ## Bulk load: the claims -/

namespace EnumStoreT

variable {E : Type} [LinearOrder E]

/-- Result of `load_unique_values_internal` on a buffer of `n` records followed by `t` bytes,
`t` less than a record, given a well-formed allocator. -/
theorem load_unique_values_internal_spec (c : EntryLayout E) (s : EnumStoreT E) (src : List Byte)
    (idx0 : IndexVector) (n t : Nat) (hwf : s._store.allocator.WF)
    (hlen : src.length = n * c.size + t) (ht : t < c.size) :
    load_unique_values_internal c s src idx0 =
      if List.Chain' (· < ·) (c.records n src) then
        .ok (if t = 0 then (src.length : Int) else -1,
          idx0 ++ (s._store.allocator.allocate_all (c.records n src)).1,
          s.with_allocator (s._store.allocator.allocate_all (c.records n src)).2)
      else .error .assertion := by
  have h := load_unique_values_loop_spec c src.length n src.length s src 0 idx0 none t hwf rfl
    hlen ht (le_refl _)
  simpa [load_unique_values_internal] using h

/-- C3 (bulk load of well-formed input): for every `n` and every buffer of exactly
`n * sizeof(EntryType)` bytes whose `n` records are strictly ascending, loading into an empty
store returns `n * sizeof(EntryType)` and appends exactly `n` references to `idx`, the i-th of
which resolves to the i-th record; with `idx` passed in empty, `load_unique_values` builds the
dictionary from exactly those `n` references. -/
theorem load_unique_values_well_formed (c : EntryLayout E) (n : Nat) (src : List Byte)
    (hlen : src.length = n * c.size) (hasc : List.Chain' (· < ·) (c.records n src)) :
    (∀ idx0 : IndexVector, ∃ refs s1,
      load_unique_values_internal c mk_empty src idx0
        = .ok (((n * c.size : Nat) : Int), idx0 ++ refs, s1) ∧
      refs.length = n ∧
      List.Forall₂ (fun r v => s1._store.allocator.get r = .ok v) refs (c.records n src)) ∧
    (∃ refs s1,
      load_unique_values c mk_empty src [] = .ok (((n * c.size : Nat) : Int), refs, s1) ∧
      refs.length = n ∧
      List.Forall₂ (fun r v => s1._store.allocator.get r = .ok v) refs (c.records n src) ∧
      s1._store.dict = refs) := by
  have hspec := fun idx0 =>
    load_unique_values_internal_spec c mk_empty src idx0 n 0 mk_empty_wf (by simpa using hlen)
      c.size_pos
  have hget := allocate_all_get (mk_empty : EnumStoreT E)._store.allocator mk_empty_wf
    (c.records n src)
  have hl : ((mk_empty : EnumStoreT E)._store.allocator.allocate_all (c.records n src)).1.length
      = n := by
    rw [hget.length_eq, length_records]
  constructor
  · intro idx0
    refine ⟨_, (mk_empty : EnumStoreT E).with_allocator
      ((mk_empty : EnumStoreT E)._store.allocator.allocate_all (c.records n src)).2, ?_, hl, hget⟩
    rw [hspec idx0, if_pos hasc, hlen]
    simp
  · refine ⟨((mk_empty : EnumStoreT E)._store.allocator.allocate_all (c.records n src)).1,
      { (mk_empty : EnumStoreT E).with_allocator
          ((mk_empty : EnumStoreT E)._store.allocator.allocate_all (c.records n src)).2 with
        _store := ⟨((mk_empty : EnumStoreT E)._store.allocator.allocate_all (c.records n src)).2,
          ((mk_empty : EnumStoreT E)._store.allocator.allocate_all (c.records n src)).1⟩ },
      ?_, hl, hget, rfl⟩
    have hb := UniqueStore.build_sorted_ok _ _ _ hget hasc
    have hge : (0 : Int) ≤ (n : Int) * (c.size : Int) := by positivity
    simp only [load_unique_values, hspec [], if_pos hasc, hlen]
    simp [UniqueStore.build, with_allocator, hb, hge]

/-- Witness for C3: the three records 1, 258, 1000 in little-endian 16-bit layout. -/
theorem load_unique_values_well_formed_witness :
    ([1, 0, 2, 1, 232, 3] : List Byte).length = 3 * le16_layout.size ∧
    List.Chain' (· < ·) (le16_layout.records 3 [1, 0, 2, 1, 232, 3]) ∧
    ((∀ idx0 : IndexVector, ∃ refs s1,
      load_unique_values_internal le16_layout mk_empty [1, 0, 2, 1, 232, 3] idx0
        = .ok (((3 * le16_layout.size : Nat) : Int), idx0 ++ refs, s1) ∧
      refs.length = 3 ∧
      List.Forall₂ (fun r v => s1._store.allocator.get r = .ok v) refs
        (le16_layout.records 3 [1, 0, 2, 1, 232, 3])) ∧
    (∃ refs s1,
      load_unique_values le16_layout mk_empty [1, 0, 2, 1, 232, 3] []
        = .ok (((3 * le16_layout.size : Nat) : Int), refs, s1) ∧
      refs.length = 3 ∧
      List.Forall₂ (fun r v => s1._store.allocator.get r = .ok v) refs
        (le16_layout.records 3 [1, 0, 2, 1, 232, 3]) ∧
      s1._store.dict = refs)) :=
  ⟨by decide, by simp [EntryLayout.records, le16_layout]; decide,
    load_unique_values_well_formed le16_layout 3 [1, 0, 2, 1, 232, 3] (by decide)
      (by simp [EntryLayout.records, le16_layout]; decide)⟩

/-- Neighbours out of order, in terms of the chain predicate. -/
theorem not_chain'_iff (l : List E) :
    ¬ List.Chain' (· < ·) l ↔ ∃ k x y, l[k]? = some x ∧ l[k + 1]? = some y ∧ ¬ x < y := by
  rw [chain'_iff_neighbours]
  push_neg
  rfl

/-- C4 (truncated load is signalled): with fewer than `sizeof(EntryType)` bytes available,
`load_unique_value` returns -1 and leaves both the store and `idx` as they were; hence, for a
buffer whose length is not a multiple of `sizeof(EntryType)` and whose complete records are
strictly ascending, `load_unique_values` returns -1, hands back what
`load_unique_values_internal` left without building, and the dictionary is unchanged. -/
theorem truncated_load_is_signalled (c : EntryLayout E) (s : EnumStoreT E) :
    (∀ (src : List Byte) (idx : Nat), src.length < c.size →
      load_unique_value c s src idx = .ok (-1, idx, s)) ∧
    (s._store.allocator.WF → ∀ (src : List Byte) (idx0 : IndexVector),
      src.length % c.size ≠ 0 →
      List.Chain' (· < ·) (c.records (src.length / c.size) src) →
      ∃ idx1 s1, load_unique_values c s src idx0 = .ok (-1, idx1, s1) ∧
        load_unique_values_internal c s src idx0 = .ok (-1, idx1, s1) ∧
        s1._store.dict = s._store.dict) := by
  constructor
  · intro src idx h
    simp [load_unique_value, h]
  · intro hwf src idx0 hmod hasc
    have hlen : src.length = src.length / c.size * c.size + src.length % c.size :=
      (Nat.div_add_mod' src.length c.size).symm
    have hspec := load_unique_values_internal_spec c s src idx0 (src.length / c.size)
      (src.length % c.size) hwf hlen (Nat.mod_lt _ c.size_pos)
    rw [if_pos hasc, if_neg hmod] at hspec
    exact ⟨_, _, by simp [load_unique_values, hspec], hspec, rfl⟩

/-- Witness for C4: a single byte, and two ascending 16-bit records followed by one byte. -/
theorem truncated_load_is_signalled_witness :
    (([7] : List Byte).length < le16_layout.size ∧
      load_unique_value le16_layout mk_empty [7] 0 = .ok (-1, 0, mk_empty)) ∧
    ((mk_empty : EnumStoreT (Fin 65536))._store.allocator.WF ∧
      ([1, 0, 2, 1, 9] : List Byte).length % le16_layout.size ≠ 0 ∧
      List.Chain' (· < ·)
        (le16_layout.records (([1, 0, 2, 1, 9] : List Byte).length / le16_layout.size)
          [1, 0, 2, 1, 9]) ∧
      ∃ idx1 s1, load_unique_values le16_layout mk_empty [1, 0, 2, 1, 9] [] = .ok (-1, idx1, s1) ∧
        load_unique_values_internal le16_layout mk_empty [1, 0, 2, 1, 9] [] = .ok (-1, idx1, s1) ∧
        s1._store.dict = (mk_empty : EnumStoreT (Fin 65536))._store.dict) :=
  ⟨⟨by decide, (truncated_load_is_signalled le16_layout mk_empty).1 [7] 0 (by decide)⟩,
    by decide, by decide, by simp [EntryLayout.records, le16_layout],
    (truncated_load_is_signalled le16_layout mk_empty).2 (by decide) [1, 0, 2, 1, 9] []
      (by decide) (by simp [EntryLayout.records, le16_layout])⟩

/-- C5 (out-of-order load is fatal): on a buffer of complete records the load aborts on the
ordering assertion if and only if some record other than the first is not strictly greater than
the record immediately before it; in particular two equal adjacent records abort, and so does
an adjacent pair `a < b` presented as `b, a`. -/
theorem load_aborts_iff_out_of_order (c : EntryLayout E) (s : EnumStoreT E)
    (hwf : s._store.allocator.WF) (n : Nat) (src : List Byte) (hlen : src.length = n * c.size) :
    (∀ idx0 : IndexVector, load_unique_values_internal c s src idx0 = .error .assertion ↔
      ∃ k x y, (c.records n src)[k]? = some x ∧ (c.records n src)[k + 1]? = some y ∧ ¬ x < y) ∧
    (load_unique_values c s src [] = .error .assertion ↔
      ∃ k x y, (c.records n src)[k]? = some x ∧ (c.records n src)[k + 1]? = some y ∧ ¬ x < y) ∧
    (∀ (idx0 : IndexVector) (xs ys : List E) (v : E), c.records n src = xs ++ v :: v :: ys →
      load_unique_values c s src idx0 = .error .assertion) ∧
    (∀ (idx0 : IndexVector) (xs ys : List E) (a b : E), a < b →
      c.records n src = xs ++ b :: a :: ys →
      load_unique_values c s src idx0 = .error .assertion) := by
  have hspec := fun idx0 =>
    load_unique_values_internal_spec c s src idx0 n 0 hwf (by simpa using hlen) c.size_pos
  have hbad : ∀ idx0 : IndexVector, ¬ List.Chain' (· < ·) (c.records n src) →
      load_unique_values c s src idx0 = .error .assertion := by
    intro idx0 h
    simp [load_unique_values, hspec idx0, h]
  refine ⟨?_, ?_, ?_, ?_⟩
  · intro idx0
    rw [← not_chain'_iff, hspec idx0]
    by_cases h : List.Chain' (· < ·) (c.records n src) <;> simp [h]
  · rw [← not_chain'_iff]
    by_cases h : List.Chain' (· < ·) (c.records n src)
    · have hget := allocate_all_get s._store.allocator hwf (c.records n src)
      have hb := UniqueStore.build_sorted_ok _ _ _ hget h
      have hge : (0 : Int) ≤ (n : Int) * (c.size : Int) := by positivity
      simp only [load_unique_values, hspec [], if_pos h, hlen]
      simp [UniqueStore.build, with_allocator, hb, hge, h]
    · simp [hbad [] h, h]
  · intro idx0 xs ys v hrec
    apply hbad idx0
    rw [not_chain'_iff, hrec]
    exact ⟨xs.length, v, v, (neighbours_of_append xs ys v v).1, (neighbours_of_append xs ys v v).2,
      lt_irrefl v⟩
  · intro idx0 xs ys a b hab hrec
    apply hbad idx0
    rw [not_chain'_iff, hrec]
    exact ⟨xs.length, b, a, (neighbours_of_append xs ys b a).1, (neighbours_of_append xs ys b a).2,
      not_lt.2 hab.le⟩

/-- Witness for C5: the 16-bit records 1, 5, 5 (equal neighbours) loaded into an empty store. -/
theorem load_aborts_iff_out_of_order_witness :
    (mk_empty : EnumStoreT (Fin 65536))._store.allocator.WF ∧
    ([1, 0, 5, 0, 5, 0] : List Byte).length = 3 * le16_layout.size ∧
    le16_layout.records 3 [1, 0, 5, 0, 5, 0] = [1] ++ 5 :: 5 :: [] ∧
    load_unique_values le16_layout mk_empty [1, 0, 5, 0, 5, 0] [] = .error .assertion :=
  ⟨by decide, by decide, by decide,
    (load_aborts_iff_out_of_order le16_layout mk_empty (by decide) 3 [1, 0, 5, 0, 5, 0]
      (by decide)).2.2.1 [] [1] [] 5 (by decide)⟩

/-- C6 (serialize/load are inverses): for every store and every list of valid references whose
values are strictly ascending, writing the value of each reference in order gives
`n * sizeof(EntryType)` bytes, and loading those bytes into an empty store succeeds, consumes
all of them and yields `n` references whose values equal, position by position, the values of
the original references. -/
theorem write_value_load_inverse (c : EntryLayout E) (s : EnumStoreT E) (idxs : List Nat)
    (vals : List E)
    (hvals : List.Forall₂ (fun i v => Index.valid i = true ∧ s._store.allocator.get i = .ok v)
      idxs vals)
    (hasc : List.Chain' (· < ·) vals) :
    ∃ bytes refs s1, write_values c s [] idxs = .ok bytes ∧
      bytes.length = idxs.length * c.size ∧
      load_unique_values c mk_empty bytes [] = .ok ((bytes.length : Int), refs, s1) ∧
      refs.length = idxs.length ∧
      List.Forall₂ (fun r v => s1._store.allocator.get r = .ok v) refs vals ∧
      List.Forall₂ (fun r i => s1._store.allocator.get r = s._store.allocator.get i) refs idxs := by
  have hw := write_values_eq c s idxs vals hvals []
  have hlen : (c.encode vals).length = vals.length * c.size := c.length_encode vals
  have hrec : c.records vals.length (c.encode vals) = vals := c.records_encode vals
  have hspec := load_unique_values_internal_spec c mk_empty (c.encode vals) [] vals.length 0
    mk_empty_wf (by simpa using hlen) c.size_pos
  rw [hrec, if_pos hasc] at hspec
  have hget := allocate_all_get (mk_empty : EnumStoreT E)._store.allocator mk_empty_wf vals
  have hb := UniqueStore.build_sorted_ok _ _ _ hget hasc
  have hge : (0 : Int) ≤ (vals.length : Int) * (c.size : Int) := by positivity
  refine ⟨c.encode vals, ((mk_empty : EnumStoreT E)._store.allocator.allocate_all vals).1,
    { (mk_empty : EnumStoreT E).with_allocator
        ((mk_empty : EnumStoreT E)._store.allocator.allocate_all vals).2 with
      _store := ⟨((mk_empty : EnumStoreT E)._store.allocator.allocate_all vals).2,
        ((mk_empty : EnumStoreT E)._store.allocator.allocate_all vals).1⟩ },
    by simpa using hw, by rw [hlen, hvals.length_eq], ?_, ?_, hget, ?_⟩
  · simp only [load_unique_values, hspec]
    simp [UniqueStore.build, with_allocator, hb, hge, hlen]
  · rw [hget.length_eq, hvals.length_eq]
  · have hflip : List.Forall₂ (fun v i => s._store.allocator.get i = .ok v) vals idxs :=
      List.Forall₂.flip (List.Forall₂.imp (fun _ _ h => h.2) hvals)
    exact List.forall₂_iff_get.2 ⟨by rw [hget.length_eq, hvals.length_eq], fun k h1 h2 => by
      have hv : k < vals.length := by rw [← hget.length_eq]; exact h1
      have e1 := (List.forall₂_iff_get.1 hget).2 k h1 hv
      have e2 := (List.forall₂_iff_get.1 hflip).2 k hv h2
      rw [e1, e2]⟩

/-- Witness for C6: a store holding 1000 and 258, written in ascending order of value. -/
theorem write_value_load_inverse_witness :
    List.Forall₂ (fun i v => Index.valid i = true ∧
        (⟨⟨⟨[⟨1000, 1⟩, ⟨258, 1⟩], [], [], []⟩, [2, 1]⟩, ⟨0, 0⟩, ⟨0, 0, 2 ^ 32⟩⟩ :
          EnumStoreT (Fin 65536))._store.allocator.get i = .ok v) [2, 1] [258, 1000] ∧
    List.Chain' (· < ·) ([258, 1000] : List (Fin 65536)) ∧
    ∃ bytes refs s1,
      write_values le16_layout (⟨⟨⟨[⟨1000, 1⟩, ⟨258, 1⟩], [], [], []⟩, [2, 1]⟩, ⟨0, 0⟩,
        ⟨0, 0, 2 ^ 32⟩⟩ : EnumStoreT (Fin 65536)) [] [2, 1] = .ok bytes ∧
      bytes.length = ([2, 1] : List Nat).length * le16_layout.size ∧
      load_unique_values le16_layout mk_empty bytes [] = .ok ((bytes.length : Int), refs, s1) ∧
      refs.length = ([2, 1] : List Nat).length ∧
      List.Forall₂ (fun r v => s1._store.allocator.get r = .ok v) refs [258, 1000] ∧
      List.Forall₂ (fun r i => s1._store.allocator.get r =
        (⟨⟨⟨[⟨1000, 1⟩, ⟨258, 1⟩], [], [], []⟩, [2, 1]⟩, ⟨0, 0⟩, ⟨0, 0, 2 ^ 32⟩⟩ :
          EnumStoreT (Fin 65536))._store.allocator.get i) refs [2, 1] :=
  ⟨List.Forall₂.cons ⟨rfl, rfl⟩ (List.Forall₂.cons ⟨rfl, rfl⟩ List.Forall₂.nil),
    by simp,
    write_value_load_inverse le16_layout _ [2, 1] [258, 1000]
      (List.Forall₂.cons ⟨rfl, rfl⟩ (List.Forall₂.cons ⟨rfl, rfl⟩ List.Forall₂.nil))
      (by simp)⟩

end EnumStoreT

/-! ## Compaction trigger and freeing of unused entries -/

namespace EnumStoreT

variable {E : Type}

/-- C7 (lookup by invalid `Index` is an ordinary miss): for the invalid sentinel, `getValue`
returns false and leaves the output value unchanged, without aborting; for a valid `Index` it
returns true and sets the output to the value stored behind the `Index`. -/
theorem getValue_invalid_or_stored (s : EnumStoreT E) (idx : Nat) (out : E) :
    (Index.valid idx = false → s.getValue idx out = .ok (false, out)) ∧
    (Index.valid idx = true → ∀ v, s._store.allocator.get idx = .ok v →
      s.getValue idx out = .ok (true, v)) := by
  constructor
  · intro h
    simp [getValue, h]
  · intro h v hv
    simp [getValue, h, hv]

/-- Witness for C7: the sentinel and the reference of the stored value 7. -/
theorem getValue_invalid_or_stored_witness :
    (Index.valid 0 = false ∧
      (⟨⟨⟨[⟨7, 1⟩], [], [], []⟩, [1]⟩, ⟨0, 0⟩, ⟨0, 0, 2 ^ 32⟩⟩ : EnumStoreT Nat).getValue 0 4
        = .ok (false, 4)) ∧
    (Index.valid 1 = true ∧
      (⟨⟨⟨[⟨7, 1⟩], [], [], []⟩, [1]⟩, ⟨0, 0⟩, ⟨0, 0, 2 ^ 32⟩⟩ : EnumStoreT Nat)._store.allocator.get 1
        = .ok 7 ∧
      (⟨⟨⟨[⟨7, 1⟩], [], [], []⟩, [1]⟩, ⟨0, 0⟩, ⟨0, 0, 2 ^ 32⟩⟩ : EnumStoreT Nat).getValue 1 4
        = .ok (true, 7)) :=
  ⟨⟨rfl, (getValue_invalid_or_stored _ 0 4).1 rfl⟩,
    ⟨rfl, rfl, (getValue_invalid_or_stored _ 1 4).2 rfl 7 rfl⟩⟩

/-- C8 (compaction trigger): with `m` the memory flag and `a` the address-space flag computed
from the cached counters, `consider_compact` returns what `compact_worst(m, a)` returns exactly
when `m` or `a` holds, and otherwise returns no remap and the store as it was.  In particular
nothing is compacted when both dead counters are below the slack of 65536, whatever the ratios,
nor when used and dead counters are all zero; the decision involves no division. -/
theorem consider_compact_trigger {R : Type} (fp : DoubleArith)
    (compact_worst : EnumStoreT E → Bool → Bool → Option R × EnumStoreT E)
    (s : EnumStoreT E) (strategy : CompactionStrategy fp.D) (m a : Bool)
    (hm : m = (decide (s._cached_values_memory_usage.deadBytes ≥ 65536) &&
      fp.lt (fp.mul (fp.ofSize s._cached_values_memory_usage.usedBytes)
        strategy.getMaxDeadBytesRatio) (fp.ofSize s._cached_values_memory_usage.deadBytes)))
    (ha : a = (decide (s._cached_values_address_space_usage.dead ≥ 65536) &&
      fp.lt (fp.mul (fp.ofSize s._cached_values_address_space_usage.used)
        strategy.getMaxDeadAddressSpaceRatio)
        (fp.ofSize s._cached_values_address_space_usage.dead))) :
    ((m = true ∨ a = true) → s.consider_compact fp compact_worst strategy = compact_worst s m a) ∧
    (¬ (m = true ∨ a = true) → s.consider_compact fp compact_worst strategy = (none, s)) ∧
    (s._cached_values_memory_usage.deadBytes < 65536 →
      s._cached_values_address_space_usage.dead < 65536 →
      s.consider_compact fp compact_worst strategy = (none, s)) ∧
    (s._cached_values_memory_usage.usedBytes = 0 → s._cached_values_memory_usage.deadBytes = 0 →
      s._cached_values_address_space_usage.used = 0 →
      s._cached_values_address_space_usage.dead = 0 →
      s.consider_compact fp compact_worst strategy = (none, s)) := by
  have hm' : s.compact_memory fp strategy = m := by
    rw [hm]; simp [compact_memory, DEAD_BYTES_SLACK]
  have ha' : s.compact_address_space fp strategy = a := by
    rw [ha]; simp [compact_address_space, DEAD_ADDRESS_SPACE_SLACK]
  have hslack : s._cached_values_memory_usage.deadBytes < 65536 →
      s._cached_values_address_space_usage.dead < 65536 →
      s.consider_compact fp compact_worst strategy = (none, s) := by
    intro h1 h2
    have e1 : m = false := by
      rw [hm]; simp [Nat.not_le.2 h1]
    have e2 : a = false := by
      rw [ha]; simp [Nat.not_le.2 h2]
    simp [consider_compact, hm', ha', e1, e2]
  refine ⟨?_, ?_, hslack, ?_⟩
  · intro h
    rcases h with h | h <;> simp [consider_compact, hm', ha', h]
  · intro h
    have e1 : m = false := by cases m <;> simp_all
    have e2 : a = false := by cases a <;> simp_all
    simp [consider_compact, hm', ha', e1, e2]
  · intro _ h1 _ h2
    exact hslack (by omega) (by omega)

/-- Witness for C8: cached counters of 70000 dead bytes out of 100000 used, dead address space
below the slack, and a strategy tolerating a fifth of dead bytes. -/
theorem consider_compact_trigger_witness :
    (true = true ∨ false = true) ∧
    (⟨UniqueStore.empty, ⟨100000, 70000⟩, ⟨500, 100, 2 ^ 32⟩⟩ : EnumStoreT Nat).consider_compact
      rat_arith (fun s m a => (some (m, a), s)) ⟨(1 / 5 : ℚ), (1 / 5 : ℚ)⟩
      = (some (true, false), ⟨UniqueStore.empty, ⟨100000, 70000⟩, ⟨500, 100, 2 ^ 32⟩⟩) ∧
    (⟨UniqueStore.empty, ⟨100000, 700⟩, ⟨500, 100, 2 ^ 32⟩⟩ : EnumStoreT Nat).consider_compact
      rat_arith (fun s m a => (some (m, a), s)) ⟨(0 : ℚ), (0 : ℚ)⟩
      = (none, ⟨UniqueStore.empty, ⟨100000, 700⟩, ⟨500, 100, 2 ^ 32⟩⟩) ∧
    (mk_empty : EnumStoreT Nat).consider_compact
      rat_arith (fun s m a => (some (m, a), s)) ⟨(0 : ℚ), (0 : ℚ)⟩ = (none, mk_empty) :=
  ⟨Or.inl rfl,
    (consider_compact_trigger rat_arith (fun s m a => (some (m, a), s))
      (⟨UniqueStore.empty, ⟨100000, 70000⟩, ⟨500, 100, 2 ^ 32⟩⟩ : EnumStoreT Nat)
      ⟨(1 / 5 : ℚ), (1 / 5 : ℚ)⟩ true false
      (by simp [rat_arith]; norm_num) (by simp [rat_arith])).1 (Or.inl rfl),
    (consider_compact_trigger rat_arith (fun s m a => (some (m, a), s))
      (⟨UniqueStore.empty, ⟨100000, 700⟩, ⟨500, 100, 2 ^ 32⟩⟩ : EnumStoreT Nat)
      ⟨(0 : ℚ), (0 : ℚ)⟩ false false
      (by simp [rat_arith]) (by simp [rat_arith])).2.2.1 (by decide) (by decide),
    (consider_compact_trigger rat_arith (fun s m a => (some (m, a), s))
      (mk_empty : EnumStoreT Nat) ⟨(0 : ℚ), (0 : ℚ)⟩ false false
      (by simp [rat_arith, mk_empty]) (by simp [rat_arith, mk_empty])).2.2.2 rfl rfl rfl rfl⟩

/-- C10 (freeing unused entries): `freeUnusedEnum(idx, unused)` inserts `idx` into `unused` and
puts it on the allocator's hold list when the reference count of the entry is 0, and leaves both
as they were when the count is greater than 0; `idx` lands on the hold list if and only if the
count is 0.  In neither case is the slot freed: free list, slots and superseded holds are
unchanged. -/
theorem freeUnusedEnum_holds_iff_unreferenced (s : EnumStoreT E) (idx : Nat) (unused : IndexSet)
    (ref_count : Nat) (hrc : s.get_ref_count idx = .ok ref_count) :
    ∃ unused1 s1, s.freeUnusedEnum idx unused = .ok (unused1, s1) ∧
      (ref_count = 0 → unused1 = Insert.insert idx unused ∧
        s1._store.allocator.hold1 = s._store.allocator.hold1 ++ [idx]) ∧
      (0 < ref_count → unused1 = unused ∧ s1 = s) ∧
      (s1._store.allocator.hold1 = s._store.allocator.hold1 ++ [idx] ↔ ref_count = 0) ∧
      s1._store.allocator.free_list = s._store.allocator.free_list ∧
      s1._store.allocator.slots = s._store.allocator.slots ∧
      s1._store.allocator.hold2 = s._store.allocator.hold2 ∧
      s1._store.dict = s._store.dict := by
  by_cases h0 : ref_count = 0
  · refine ⟨Insert.insert idx unused,
      { s with _store := { s._store with allocator := s._store.allocator.hold idx } }, ?_,
      fun _ => ⟨rfl, rfl⟩, fun h => absurd h0 (by omega), ⟨fun _ => h0, fun _ => rfl⟩,
      rfl, rfl, rfl, rfl⟩
    simp [freeUnusedEnum, hrc, h0]
  · refine ⟨unused, s, ?_, fun h => absurd h h0, fun _ => ⟨rfl, rfl⟩, ⟨fun h => ?_, fun h => absurd h h0⟩,
      rfl, rfl, rfl, rfl⟩
    · simp [freeUnusedEnum, hrc, h0]
    · have := congrArg List.length h
      simp at this

/-- Witness for C10: an entry without references and an entry with two references. -/
theorem freeUnusedEnum_holds_iff_unreferenced_witness :
    ((⟨⟨⟨[⟨7, 0⟩, ⟨3, 2⟩], [], [], []⟩, [2, 1]⟩, ⟨0, 0⟩, ⟨0, 0, 2 ^ 32⟩⟩ : EnumStoreT Nat).get_ref_count 1
      = .ok 0 ∧
    ∃ unused1 s1,
      (⟨⟨⟨[⟨7, 0⟩, ⟨3, 2⟩], [], [], []⟩, [2, 1]⟩, ⟨0, 0⟩, ⟨0, 0, 2 ^ 32⟩⟩ : EnumStoreT Nat).freeUnusedEnum
        1 ∅ = .ok (unused1, s1) ∧
      (0 = 0 → unused1 = Insert.insert 1 (∅ : IndexSet) ∧
        s1._store.allocator.hold1 = [] ++ [1]) ∧
      (0 < 0 → unused1 = ∅ ∧
        s1 = ⟨⟨⟨[⟨7, 0⟩, ⟨3, 2⟩], [], [], []⟩, [2, 1]⟩, ⟨0, 0⟩, ⟨0, 0, 2 ^ 32⟩⟩) ∧
      (s1._store.allocator.hold1 = [] ++ [1] ↔ 0 = 0) ∧
      s1._store.allocator.free_list = [] ∧
      s1._store.allocator.slots = [⟨7, 0⟩, ⟨3, 2⟩] ∧
      s1._store.allocator.hold2 = [] ∧
      s1._store.dict = [2, 1]) ∧
    ((⟨⟨⟨[⟨7, 0⟩, ⟨3, 2⟩], [], [], []⟩, [2, 1]⟩, ⟨0, 0⟩, ⟨0, 0, 2 ^ 32⟩⟩ : EnumStoreT Nat).get_ref_count 2
      = .ok 2 ∧
    ∃ unused1 s1,
      (⟨⟨⟨[⟨7, 0⟩, ⟨3, 2⟩], [], [], []⟩, [2, 1]⟩, ⟨0, 0⟩, ⟨0, 0, 2 ^ 32⟩⟩ : EnumStoreT Nat).freeUnusedEnum
        2 ∅ = .ok (unused1, s1) ∧
      (2 = 0 → unused1 = Insert.insert 2 (∅ : IndexSet) ∧
        s1._store.allocator.hold1 = [] ++ [2]) ∧
      (0 < 2 → unused1 = ∅ ∧
        s1 = ⟨⟨⟨[⟨7, 0⟩, ⟨3, 2⟩], [], [], []⟩, [2, 1]⟩, ⟨0, 0⟩, ⟨0, 0, 2 ^ 32⟩⟩) ∧
      (s1._store.allocator.hold1 = [] ++ [2] ↔ 2 = 0) ∧
      s1._store.allocator.free_list = [] ∧
      s1._store.allocator.slots = [⟨7, 0⟩, ⟨3, 2⟩] ∧
      s1._store.allocator.hold2 = [] ∧
      s1._store.dict = [2, 1]) :=
  ⟨⟨rfl, freeUnusedEnum_holds_iff_unreferenced
    (⟨⟨⟨[⟨7, 0⟩, ⟨3, 2⟩], [], [], []⟩, [2, 1]⟩, ⟨0, 0⟩, ⟨0, 0, 2 ^ 32⟩⟩ : EnumStoreT Nat) 1 ∅ 0 rfl⟩,
    ⟨rfl, freeUnusedEnum_holds_iff_unreferenced
    (⟨⟨⟨[⟨7, 0⟩, ⟨3, 2⟩], [], [], []⟩, [2, 1]⟩, ⟨0, 0⟩, ⟨0, 0, 2 ^ 32⟩⟩ : EnumStoreT Nat) 2 ∅ 2 rfl⟩⟩

end EnumStoreT

/-! ## Hold lists and reclamation -/

namespace StoreOp

variable {E : Type}

end StoreOp

/-! ## The iteration bound of the load loop is never reached -/

namespace EnumStoreT

variable {E : Type} [LinearOrder E]

theorem less_error (cmp : ComparatorType E) (a : UniqueStoreAllocator E) (lhs rhs : Nat)
    (f : Fault) (h : cmp.less a lhs rhs = .error f) : f = .bad_ref := by
  have hw : ∀ r f', a.get_wrapped r = .error f' → f' = .bad_ref := by
    intro r f' h'
    unfold UniqueStoreAllocator.get_wrapped at h'
    split at h'
    · exact (Except.error.inj h').symm
    · split at h'
      · cases h'
      · exact (Except.error.inj h').symm
  have hg : ∀ r f', cmp.get a r = .error f' → f' = .bad_ref := by
    intro r f' h'
    unfold ComparatorType.get UniqueStoreAllocator.get at h'
    split at h'
    · split at h'
      · cases h'
      · next f'' hf'' => exact hw r f' (by rw [hf'', Except.error.inj h'])
    · cases h'
  cases h1 : cmp.get a lhs with
  | error f1 =>
    simp only [ComparatorType.less, h1] at h
    exact hg lhs f (by rw [h1, Except.error.inj h])
  | ok x =>
    cases h2 : cmp.get a rhs with
    | error f2 =>
      simp only [ComparatorType.less, h1, h2] at h
      exact hg rhs f (by rw [h2, Except.error.inj h])
    | ok y => simp [ComparatorType.less, h1, h2] at h

/-- A call of `load_unique_value` fails on a fault of the code, returns -1 without consuming
anything, or consumes one record. -/
theorem load_unique_value_result (c : EntryLayout E) (s : EnumStoreT E) (p : List Byte)
    (idx1 : Nat) :
    (∃ f, f ≠ Fault.fuel ∧ load_unique_value c s p idx1 = .error f) ∨
    (p.length < c.size ∧ load_unique_value c s p idx1 = .ok (-1, idx1, s)) ∨
    (c.size ≤ p.length ∧ ∃ i s1, load_unique_value c s p idx1 = .ok ((c.size : Int), i, s1)) := by
  by_cases hlt : p.length < c.size
  · exact Or.inr (Or.inl ⟨hlt, by simp [load_unique_value, hlt]⟩)
  · by_cases hv : Index.valid idx1 = true
    · cases hl : (make_comparator (c.read (p.take c.size))).less
          (s._store.allocator.allocate (c.read (p.take c.size))).2 idx1 0 with
      | error f =>
        have := less_error _ _ _ _ f hl
        subst this
        exact Or.inl ⟨.bad_ref, by decide, by simp [load_unique_value, hlt, hv, hl]⟩
      | ok b =>
        cases b with
        | true =>
          exact Or.inr (Or.inr ⟨by omega, (s._store.allocator.allocate (c.read (p.take c.size))).1,
            s.with_allocator (s._store.allocator.allocate (c.read (p.take c.size))).2,
            by simp [load_unique_value, hlt, hv, hl, with_allocator]⟩)
        | false =>
          exact Or.inl ⟨.assertion, by decide, by simp [load_unique_value, hlt, hv, hl]⟩
    · exact Or.inr (Or.inr ⟨by omega, (s._store.allocator.allocate (c.read (p.take c.size))).1,
        s.with_allocator (s._store.allocator.allocate (c.read (p.take c.size))).2,
        by simp [load_unique_value, hlt, hv, with_allocator]⟩)

/-- With a bound of at least the number of bytes left, the loop never reports the bound. -/
theorem load_unique_values_loop_fuel (c : EntryLayout E) (available : Nat) (fuel : Nat) :
    ∀ (s : EnumStoreT E) (p : List Byte) (idx1 : Nat) (idx : IndexVector), p.length ≤ fuel →
      load_unique_values_loop c available fuel s p idx1 idx ≠ .error .fuel := by
  induction fuel with
  | zero =>
    intro s p idx1 idx hle
    have : ¬ 0 < p.length := by omega
    simp [load_unique_values_loop, this]
  | succ fuel ih =>
    intro s p idx1 idx hle
    by_cases hpos : 0 < p.length
    · rcases load_unique_value_result c s p idx1 with ⟨f, hf, he⟩ | ⟨_, he⟩ | ⟨hge, i, s1, he⟩
      · simp only [load_unique_values_loop, hpos, if_true, he]
        intro h
        exact hf (Except.error.inj h)
      · simp [load_unique_values_loop, hpos, he]
      · have hnn : ¬ ((c.size : Int) < 0) := by omega
        simp only [load_unique_values_loop, hpos, if_true, he, hnn, if_false, Int.toNat_ofNat]
        apply ih
        have := c.size_pos
        rw [List.length_drop]
        omega
    · simp [load_unique_values_loop, hpos]

/-- The loop of `load_unique_values_internal` terminates within its bound on every input. -/
theorem load_unique_values_internal_fuel (c : EntryLayout E) (s : EnumStoreT E) (src : List Byte)
    (idx : IndexVector) : load_unique_values_internal c s src idx ≠ .error .fuel :=
  load_unique_values_loop_fuel c src.length src.length s src 0 idx (le_refl _)

end EnumStoreT

end search

/-! ## Bulk load: order of the built sequence, truncation, iteration bound -/

namespace search.UniqueStore

variable {E : Type} [LinearOrder E]

/-- When the order check of `build` passes, every reference resolves and the values are
strictly ascending from neighbour to neighbour. -/
theorem build_sorted_inv (a : UniqueStoreAllocator E) (refs : List Nat) :
    build_sorted a refs = .ok () →
      ∃ vals, List.Forall₂ (fun r v => a.get r = .ok v) refs vals ∧ List.Chain' (· < ·) vals := by
  induction refs with
  | nil => intro _; exact ⟨[], List.Forall₂.nil, List.chain'_nil⟩
  | cons r rest ih =>
    intro h
    cases rest with
    | nil =>
      cases hr : a.get r with
      | error f => simp [build_sorted, hr] at h
      | ok x => exact ⟨[x], List.Forall₂.cons hr List.Forall₂.nil, List.chain'_singleton x⟩
    | cons r2 rest2 =>
      cases hr : a.get r with
      | error f => simp [build_sorted, hr] at h
      | ok x =>
        cases hr2 : a.get r2 with
        | error f => simp [build_sorted, hr, hr2] at h
        | ok y =>
          by_cases hxy : x < y
          · have hrest : build_sorted a (r2 :: rest2) = .ok () := by
              simpa [build_sorted, hr, hr2, hxy] using h
            obtain ⟨vals, hall, hchain⟩ := ih hrest
            cases hall with
            | @cons _ y2 _ vs hy hall2 =>
              have hyy : y2 = y := by
                rw [hr2] at hy
                exact (Except.ok.inj hy).symm
              subst hyy
              exact ⟨x :: y2 :: vs, List.Forall₂.cons hr (List.Forall₂.cons hr2 hall2),
                List.chain'_cons.2 ⟨hxy, hchain⟩⟩
          · simp [build_sorted, hr, hr2, hxy] at h

end search.UniqueStore

namespace search.EnumStoreT

variable {E : Type} [LinearOrder E]

/-- More iterations than needed do not change the result of the loop. -/
theorem load_unique_values_loop_mono (c : EntryLayout E) (available : Nat) (f1 : Nat) :
    ∀ (s : EnumStoreT E) (p : List Byte) (idx1 : Nat) (idx : IndexVector) (f2 : Nat), f1 ≤ f2 →
      load_unique_values_loop c available f1 s p idx1 idx ≠ .error .fuel →
      load_unique_values_loop c available f2 s p idx1 idx =
        load_unique_values_loop c available f1 s p idx1 idx := by
  induction f1 with
  | zero =>
    intro s p idx1 idx f2 _ h
    have hp : ¬ 0 < p.length := by
      intro hpos
      exact h (by simp [load_unique_values_loop, hpos])
    cases f2 <;> simp [load_unique_values_loop, hp]
  | succ g ih =>
    intro s p idx1 idx f2 hle h
    obtain ⟨g2, rfl⟩ : ∃ g2, f2 = g2 + 1 := ⟨f2 - 1, by omega⟩
    by_cases hpos : 0 < p.length
    · cases hv : load_unique_value c s p idx1 with
      | error f => simp [load_unique_values_loop, hpos, hv]
      | ok r =>
        obtain ⟨sz, i, s1⟩ := r
        by_cases hsz : sz < 0
        · simp [load_unique_values_loop, hpos, hv, hsz]
        · simp only [load_unique_values_loop, hpos, if_true, hv, hsz, if_false] at h ⊢
          exact ih s1 _ i _ g2 (by omega) h
    · simp [load_unique_values_loop, hpos]

/-- A bound of `left / sizeof(EntryType) + 1` iterations is never exhausted. -/
theorem load_unique_values_loop_bound (c : EntryLayout E) (available : Nat) (fuel : Nat) :
    ∀ (s : EnumStoreT E) (p : List Byte) (idx1 : Nat) (idx : IndexVector),
      p.length / c.size + 1 ≤ fuel →
      load_unique_values_loop c available fuel s p idx1 idx ≠ .error .fuel := by
  induction fuel with
  | zero => intro s p idx1 idx h; exact absurd h (Nat.not_succ_le_zero _)
  | succ fuel ih =>
    intro s p idx1 idx hle
    by_cases hpos : 0 < p.length
    · rcases load_unique_value_result c s p idx1 with ⟨f, hf, he⟩ | ⟨_, he⟩ | ⟨hge, i, s1, he⟩
      · simp only [load_unique_values_loop, hpos, if_true, he]
        intro h
        exact hf (Except.error.inj h)
      · simp [load_unique_values_loop, hpos, he]
      · have hnn : ¬ ((c.size : Int) < 0) := by omega
        simp only [load_unique_values_loop, hpos, if_true, he, hnn, if_false, Int.toNat_ofNat]
        apply ih
        rw [List.length_drop]
        have hdiv := Nat.div_eq_sub_div c.size_pos hge
        rw [hdiv] at hle
        exact Nat.le_of_succ_le_succ hle
    · simp [load_unique_values_loop, hpos]

/-- C15 (a truncated load is not atomic): on a buffer of `k` complete strictly ascending records
followed by a tail of 1 to `sizeof(EntryType) - 1` bytes, `load_unique_values_internal` returns
-1 although it has allocated `k` entries, one per record, in slots that were not live before,
and has appended their `k` references to the caller's vector.  In every iteration that goes on,
the remaining byte count decreases by exactly `sizeof(EntryType)`, which it is at least; and on
every input the loop is done within `available / sizeof(EntryType) + 1` iterations. -/
theorem truncated_load_is_not_atomic (c : EntryLayout E) :
    (∀ (s : EnumStoreT E) (k t : Nat) (src : List Byte) (idx0 : IndexVector),
      s._store.allocator.WF → src.length = k * c.size + t → 1 ≤ t → t < c.size →
      List.Chain' (· < ·) (c.records k src) →
      ∃ refs s1, load_unique_values_internal c s src idx0 = .ok (-1, idx0 ++ refs, s1) ∧
        refs.length = k ∧ refs.Nodup ∧
        (∀ r ∈ refs, r ∈ s._store.allocator.free_list ∨ s._store.allocator.slots.length < r) ∧
        List.Forall₂ (fun r v => s1._store.allocator.get_wrapped r = .ok ⟨v, 0⟩) refs
          (c.records k src) ∧
        s1._store.dict = s._store.dict) ∧
    (∀ (s : EnumStoreT E) (p : List Byte) (idx1 : Nat) (sz : Int) (i : Nat) (s1 : EnumStoreT E),
      load_unique_value c s p idx1 = .ok (sz, i, s1) → 0 ≤ sz →
      sz = (c.size : Int) ∧ c.size ≤ p.length ∧
        (p.drop sz.toNat).length + c.size = p.length) ∧
    (∀ (s : EnumStoreT E) (src : List Byte) (idx0 : IndexVector) (fuel : Nat),
      src.length / c.size + 1 ≤ fuel →
      load_unique_values_loop c src.length fuel s src 0 idx0 ≠ .error .fuel ∧
      load_unique_values_loop c src.length fuel s src 0 idx0 =
        load_unique_values_internal c s src idx0) := by
  refine ⟨?_, ?_, ?_⟩
  · intro s k t src idx0 hwf hlen ht1 ht hasc
    have hspec := load_unique_values_internal_spec c s src idx0 k t hwf hlen ht
    have ht0 : ¬ t = 0 := by omega
    rw [if_pos hasc, if_neg ht0] at hspec
    obtain ⟨-, -, hrefs, hnd, hall, -⟩ :=
      UniqueStoreAllocator.allocate_all_spec (c.records k src) s._store.allocator hwf
    refine ⟨_, _, hspec, ?_, hnd, fun r hr => (hrefs r hr).2.2, hall, rfl⟩
    rw [hall.length_eq, length_records]
  · intro s p idx1 sz i s1 h hsz
    rcases load_unique_value_result c s p idx1 with ⟨f, _, he⟩ | ⟨_, he⟩ | ⟨hge, i', s', he⟩
    · rw [he] at h; cases h
    · rw [he] at h
      have := (Prod.mk.inj (Except.ok.inj h)).1
      omega
    · rw [he] at h
      have hsz' : (c.size : Int) = sz := (Prod.mk.inj (Except.ok.inj h)).1
      subst hsz'
      refine ⟨rfl, hge, ?_⟩
      rw [Int.toNat_ofNat, List.length_drop]
      omega
  · intro s src idx0 fuel hfuel
    have h1 := load_unique_values_loop_bound c src.length fuel s src 0 idx0 hfuel
    have h2 := load_unique_values_loop_fuel c src.length src.length s src 0 idx0 (le_refl _)
    refine ⟨h1, ?_⟩
    have e1 := load_unique_values_loop_mono c src.length fuel s src 0 idx0 (max fuel src.length)
      (le_max_left _ _) h1
    have e2 := load_unique_values_loop_mono c src.length src.length s src 0 idx0
      (max fuel src.length) (le_max_right _ _) h2
    rw [← e1, e2]
    rfl

/-- Witness for C15: two ascending 16-bit records followed by one byte. -/
theorem truncated_load_is_not_atomic_witness :
    (mk_empty : EnumStoreT (Fin 65536))._store.allocator.WF ∧
    ([1, 0, 2, 1, 9] : List Byte).length = 2 * le16_layout.size + 1 ∧
    List.Chain' (· < ·) (le16_layout.records 2 [1, 0, 2, 1, 9]) ∧
    (∃ refs s1,
      load_unique_values_internal le16_layout mk_empty [1, 0, 2, 1, 9] [] = .ok (-1, [] ++ refs, s1) ∧
      refs.length = 2 ∧ refs.Nodup ∧
      (∀ r ∈ refs, r ∈ (mk_empty : EnumStoreT (Fin 65536))._store.allocator.free_list ∨
        (mk_empty : EnumStoreT (Fin 65536))._store.allocator.slots.length < r) ∧
      List.Forall₂ (fun r v => s1._store.allocator.get_wrapped r = .ok ⟨v, 0⟩) refs
        (le16_layout.records 2 [1, 0, 2, 1, 9]) ∧
      s1._store.dict = (mk_empty : EnumStoreT (Fin 65536))._store.dict) ∧
    ([1, 0, 2, 1, 9] : List Byte).length / le16_layout.size + 1 ≤ 3 ∧
    load_unique_values_loop le16_layout ([1, 0, 2, 1, 9] : List Byte).length 3 mk_empty
      [1, 0, 2, 1, 9] 0 [] ≠ .error .fuel :=
  ⟨by decide, by decide, by simp [EntryLayout.records, le16_layout],
    (truncated_load_is_not_atomic le16_layout).1 mk_empty 2 1 [1, 0, 2, 1, 9] [] (by decide)
      (by decide) (by decide) (by decide) (by simp [EntryLayout.records, le16_layout]),
    by decide,
    ((truncated_load_is_not_atomic le16_layout).2.2 mk_empty [1, 0, 2, 1, 9] [] 3 (by decide)).1⟩

end search.EnumStoreT

/-! ## Batch insert -/

namespace search.UniqueStore

variable {E : Type} [LinearOrder E]

/-- The lookup finds an entry holding the value when it stands in the dictionary behind
references of smaller values only. -/
theorem find_index_hit (s : UniqueStore E) (v : E) (lo hi : List Nat) (ref : Nat)
    (hsplit : s.dict = lo ++ ref :: hi)
    (hlo : ∀ r' ∈ lo, r' ≠ 0 ∧ ∃ x, s.allocator.get r' = .ok x ∧ x < v)
    (hr0 : ref ≠ 0) (hval : s.allocator.get ref = .ok v) :
    s.find_index ⟨v⟩ = .ok (some ref) := by
  have hlb : lower_bound ⟨v⟩ s.allocator s.dict = .ok (lo, ref :: hi) := by
    rw [hsplit]
    exact lower_bound_append ⟨v⟩ s.allocator lo ref hi v hlo hr0 hval (lt_irrefl v)
  have hless := ComparatorType.less_invalid_ref ⟨v⟩ s.allocator ref v hr0 hval
  simp [find_index, hlb, hless]

/-- Outcome of the dictionary's `add` with an allocating callback on a well-formed, ordered
store: a hit exactly when the value is in the dictionary, which then changes nothing; otherwise
a slot is allocated and its reference inserted at the lower bound.  The store stays well formed
and ordered, and the value is found afterwards. -/
theorem dict_add_spec (s : UniqueStore E) (h : s.WF) (hord : s.Ordered) (v : E) :
    ∃ ref s1, s.dict_add ⟨v⟩ (fun a => a.allocate v) = .ok (⟨ref, decide (ref ∉ s.dict)⟩, s1) ∧
      s1.WF ∧ s1.Ordered ∧ ref ∈ s1.dict ∧ s1.allocator.get ref = .ok v ∧
      s1.find_index ⟨v⟩ = .ok (some ref) ∧
      ((∃ r ∈ s.dict, s.allocator.get r = .ok v) → ref ∈ s.dict ∧ s1 = s) ∧
      ((¬ ∃ r ∈ s.dict, s.allocator.get r = .ok v) → ref ∉ s.dict ∧
        (s.allocator.allocate v).1 = ref ∧ s1.allocator = (s.allocator.allocate v).2 ∧
        ∃ lo hi, s.dict = lo ++ hi ∧ s1.dict = lo ++ ref :: hi) := by
  obtain ⟨hwf, hdict⟩ := h
  obtain ⟨lo, hi, hlb, hsplit, hlo, hhi⟩ :=
    lower_bound_spec ⟨v⟩ s.allocator s.dict (fun r hr => (hdict r hr).1)
  have hlo_lt : ∀ r ∈ lo, ∀ y, s.allocator.get r = .ok y → y < v := by
    intro r hr y hy
    obtain ⟨x, hx, hlt⟩ := hlo r hr
    rw [hx] at hy
    exact (Except.ok.inj hy) ▸ hlt
  -- a miss: every value of `hi` is above `v`
  have miss : (∀ r ∈ hi, ∃ y, s.allocator.get r = .ok y ∧ v < y) →
      s.dict_add ⟨v⟩ (fun a => a.allocate v) =
        .ok (⟨(s.allocator.allocate v).1, true⟩,
          ⟨(s.allocator.allocate v).2, lo ++ (s.allocator.allocate v).1 :: hi⟩) →
      ∃ ref s1, s.dict_add ⟨v⟩ (fun a => a.allocate v)
          = .ok (⟨ref, decide (ref ∉ s.dict)⟩, s1) ∧
        s1.WF ∧ s1.Ordered ∧ ref ∈ s1.dict ∧ s1.allocator.get ref = .ok v ∧
        s1.find_index ⟨v⟩ = .ok (some ref) ∧
        ((∃ r ∈ s.dict, s.allocator.get r = .ok v) → ref ∈ s.dict ∧ s1 = s) ∧
        ((¬ ∃ r ∈ s.dict, s.allocator.get r = .ok v) → ref ∉ s.dict ∧
          (s.allocator.allocate v).1 = ref ∧ s1.allocator = (s.allocator.allocate v).2 ∧
          ∃ lo hi, s.dict = lo ++ hi ∧ s1.dict = lo ++ ref :: hi) := by
    intro hhigh hadd
    obtain ⟨hwf1, hal1, hget1, hnf1, horig, hfsub, halmono, hsame⟩ :=
      UniqueStoreAllocator.allocate_spec s.allocator hwf v
    have hval1 := UniqueStoreAllocator.get_of_get_wrapped _ _ _ hget1
    have hnotin : (s.allocator.allocate v).1 ∉ s.dict := by
      intro hmem
      obtain ⟨hal, hnf⟩ := hdict _ hmem
      rcases horig with h1 | h1
      · exact hnf h1
      · have := hal.2; omega
    have hold : ∀ r ∈ s.dict, (s.allocator.allocate v).2.get r = s.allocator.get r := by
      intro r hr
      have hne : r ≠ (s.allocator.allocate v).1 := fun he => hnotin (he ▸ hr)
      simp [UniqueStoreAllocator.get, hsame r (hdict r hr).1 hne]
    have hmemlo : ∀ r ∈ lo, r ∈ s.dict := fun r hr => by
      rw [hsplit]; exact List.mem_append.2 (Or.inl hr)
    have hmemhi : ∀ r ∈ hi, r ∈ s.dict := fun r hr => by
      rw [hsplit]; exact List.mem_append.2 (Or.inr hr)
    have hnone : ¬ ∃ r ∈ s.dict, s.allocator.get r = .ok v := by
      rintro ⟨r, hr, hrv⟩
      rw [hsplit] at hr
      rcases List.mem_append.1 hr with h1 | h1
      · exact lt_irrefl v (hlo_lt r h1 v hrv)
      · obtain ⟨y, hy, hlt⟩ := hhigh r h1
        rw [hy] at hrv
        exact lt_irrefl v ((Except.ok.inj hrv) ▸ hlt)
    have hlo1 : ∀ r' ∈ lo, r' ≠ 0 ∧ ∃ x, (s.allocator.allocate v).2.get r' = .ok x ∧ x < v := by
      intro r' hr'
      obtain ⟨x, hx, hlt⟩ := hlo r' hr'
      exact ⟨(hdict r' (hmemlo r' hr')).1.1, x, by rw [hold r' (hmemlo r' hr')]; exact hx, hlt⟩
    refine ⟨(s.allocator.allocate v).1,
      ⟨(s.allocator.allocate v).2, lo ++ (s.allocator.allocate v).1 :: hi⟩, ?_, ?_, ?_, by simp,
      hval1, ?_, fun hex => absurd hex hnone,
      fun _ => ⟨hnotin, rfl, rfl, lo, hi, hsplit, rfl⟩⟩
    · simp [hadd, hnotin]
    · refine ⟨hwf1, ?_⟩
      intro r hr
      simp only at hr
      rcases List.mem_append.1 hr with h1 | h1
      · exact ⟨halmono r (hdict r (hmemlo r h1)).1,
          fun hm => (hdict r (hmemlo r h1)).2 (hfsub r hm)⟩
      · rcases List.mem_cons.1 h1 with h2 | h2
        · rw [h2]; exact ⟨hal1, hnf1⟩
        · exact ⟨halmono r (hdict r (hmemhi r h2)).1,
            fun hm => (hdict r (hmemhi r h2)).2 (hfsub r hm)⟩
    · -- the new dictionary is ordered
      have hord' : (lo ++ hi).Pairwise (fun r1 r2 =>
          ∃ x y, (s.allocator.allocate v).2.get r1 = .ok x ∧
            (s.allocator.allocate v).2.get r2 = .ok y ∧ x < y) := by
        have hord0 : (lo ++ hi).Pairwise (fun r1 r2 =>
            ∃ x y, s.allocator.get r1 = .ok x ∧ s.allocator.get r2 = .ok y ∧ x < y) := by
          rw [← hsplit]; exact hord
        refine List.Pairwise.imp_of_mem ?_ hord0
        intro r1 r2 h1 h2 ⟨x, y, hx, hy, hlt⟩
        rw [← hsplit] at h1 h2
        exact ⟨x, y, by rw [hold r1 h1]; exact hx, by rw [hold r2 h2]; exact hy, hlt⟩
      obtain ⟨hplo, hphi, hcross⟩ := List.pairwise_append.1 hord'
      unfold Ordered
      simp only
      refine List.pairwise_append.2 ⟨hplo, List.pairwise_cons.2 ⟨?_, hphi⟩, ?_⟩
      · intro r hr
        obtain ⟨y, hy, hlt⟩ := hhigh r hr
        exact ⟨v, y, hval1, by rw [hold r (hmemhi r hr)]; exact hy, hlt⟩
      · intro r1 h1 r2 h2
        rcases List.mem_cons.1 h2 with h3 | h3
        · obtain ⟨_, x, hx, hlt⟩ := hlo1 r1 h1
          rw [h3]
          exact ⟨x, v, hx, hval1, hlt⟩
        · exact hcross r1 h1 r2 h3
    · exact find_index_hit ⟨(s.allocator.allocate v).2, lo ++ (s.allocator.allocate v).1 :: hi⟩
        v lo hi _ rfl hlo1 hal1.1 hval1
  cases hi with
  | nil =>
    exact miss (by simp) (by simp [dict_add, hlb])
  | cons r tl =>
    obtain ⟨x, hx, hnlt⟩ := hhi r tl rfl
    have hrmem : r ∈ s.dict := by rw [hsplit]; simp
    have hr0 : r ≠ 0 := (hdict r hrmem).1.1
    have hless := ComparatorType.less_invalid_ref ⟨v⟩ s.allocator r x hr0 hx
    by_cases hgt : v < x
    · refine miss ?_ (by simp [dict_add, hlb, hless, hgt])
      intro r' hr'
      rcases List.mem_cons.1 hr' with h1 | h1
      · rw [h1]; exact ⟨x, hx, hgt⟩
      · have hord0 : (lo ++ r :: tl).Pairwise (fun r1 r2 =>
            ∃ x y, s.allocator.get r1 = .ok x ∧ s.allocator.get r2 = .ok y ∧ x < y) := by
          rw [← hsplit]; exact hord
        obtain ⟨x', y', hx', hy', hlt'⟩ :=
          (List.pairwise_cons.1 (List.pairwise_append.1 hord0).2.1).1 r' h1
        rw [hx] at hx'
        have hxx : x = x' := Except.ok.inj hx'
        exact ⟨y', hy', lt_trans hgt (hxx ▸ hlt')⟩
    · have hxv : x = v := le_antisymm (not_lt.1 hgt) (not_lt.1 hnlt)
      subst hxv
      have hadd : s.dict_add ⟨x⟩ (fun a => a.allocate x) = .ok (⟨r, false⟩, s) := by
        simp [dict_add, hlb, hless]
      have hlo' : ∀ r' ∈ lo, r' ≠ 0 ∧ ∃ y, s.allocator.get r' = .ok y ∧ y < x := by
        intro r' hr'
        have hmem : r' ∈ s.dict := by rw [hsplit]; exact List.mem_append.2 (Or.inl hr')
        obtain ⟨y, hy, hlt⟩ := hlo r' hr'
        exact ⟨(hdict r' hmem).1.1, y, hy, hlt⟩
      refine ⟨r, s, by simp [hadd, hrmem], ⟨hwf, hdict⟩, hord, hrmem, hx,
        find_index_hit s x lo tl r hsplit hlo' hr0 hx, fun _ => ⟨hrmem, rfl⟩, ?_⟩
      intro hne
      exact absurd ⟨r, hrmem, hx⟩ hne

end search.UniqueStore

namespace search.EnumStoreT

variable {E : Type} [LinearOrder E]

/-- C11 (batch insert marks only new entries): on a well-formed store with an ordered
dictionary, `BatchUpdater::insert(v)` allocates a slot and adds its `Index` to the possibly
unused set when `v` is not in the dictionary, and changes nothing, neither the store nor the
set, when it is; afterwards `findIndex(v)` succeeds in both cases, with an `Index` that resolves
to `v`.  The store stays well formed and ordered. -/
theorem batch_insert_marks_only_new (u : BatchUpdater E) (hwf : u._store._store.WF)
    (hord : u._store._store.Ordered) (v : E) (idx0 : Nat) :
    ∃ u1, u.insert v = .ok u1 ∧
      ((∃ r ∈ u._store._store.dict, u._store._store.allocator.get r = .ok v) → u1 = u) ∧
      ((¬ ∃ r ∈ u._store._store.dict, u._store._store.allocator.get r = .ok v) →
        u1._store._store.allocator = (u._store._store.allocator.allocate v).2 ∧
        u1._possibly_unused =
          Insert.insert (u._store._store.allocator.allocate v).1 u._possibly_unused ∧
        (u._store._store.allocator.allocate v).1 ∈ u1._store._store.dict ∧
        (u._store._store.allocator.allocate v).1 ∉ u._store._store.dict) ∧
      (∃ idx, u1._store.findIndex v idx0 = .ok (true, idx) ∧
        u1._store._store.allocator.get idx = .ok v) ∧
      u1._store._store.WF ∧ u1._store._store.Ordered := by
  obtain ⟨ref, s1, hadd, hwf1, hord1, hmem1, hval1, hfind, hhit, hmiss⟩ :=
    UniqueStore.dict_add_spec u._store._store hwf hord v
  have hfi : ({ u._store with _store := s1 } : EnumStoreT E).findIndex v idx0 = .ok (true, ref) := by
    simp [findIndex, make_comparator, hfind]
  by_cases hex : ∃ r ∈ u._store._store.dict, u._store._store.allocator.get r = .ok v
  · obtain ⟨hin, hs1⟩ := hhit hex
    subst hs1
    refine ⟨⟨{ u._store with _store := u._store._store }, u._possibly_unused⟩, ?_, fun _ => rfl,
      fun hne => absurd hex hne, ⟨ref, hfi, hval1⟩, hwf1, hord1⟩
    simp [BatchUpdater.insert, make_comparator, hadd, hin]
  · obtain ⟨hnin, href, hal, -⟩ := hmiss hex
    refine ⟨⟨{ u._store with _store := s1 }, Insert.insert ref u._possibly_unused⟩, ?_,
      fun h => absurd h hex, fun _ => ⟨hal, by rw [href], by rw [href]; exact hmem1,
        by rw [href]; exact hnin⟩, ⟨ref, hfi, hval1⟩, hwf1, hord1⟩
    simp [BatchUpdater.insert, make_comparator, hadd, hnin]

end search.EnumStoreT

namespace search.EnumStoreT

/-- Witness for C11: a store holding 3 and 5, into which 4 is inserted. -/
theorem batch_insert_marks_only_new_witness :
    (⟨⟨⟨⟨[⟨5, 1⟩, ⟨3, 1⟩], [], [], []⟩, [2, 1]⟩, ⟨0, 0⟩, ⟨0, 0, 2 ^ 32⟩⟩, ∅⟩ :
      BatchUpdater Nat)._store._store.WF ∧
    (⟨⟨⟨⟨[⟨5, 1⟩, ⟨3, 1⟩], [], [], []⟩, [2, 1]⟩, ⟨0, 0⟩, ⟨0, 0, 2 ^ 32⟩⟩, ∅⟩ :
      BatchUpdater Nat)._store._store.Ordered ∧
    ∃ u1, (⟨⟨⟨⟨[⟨5, 1⟩, ⟨3, 1⟩], [], [], []⟩, [2, 1]⟩, ⟨0, 0⟩, ⟨0, 0, 2 ^ 32⟩⟩, ∅⟩ :
        BatchUpdater Nat).insert 4 = .ok u1 ∧
      ((∃ r ∈ ([2, 1] : List Nat),
          (⟨[⟨5, 1⟩, ⟨3, 1⟩], [], [], []⟩ : UniqueStoreAllocator Nat).get r = .ok 4) →
        u1 = ⟨⟨⟨⟨[⟨5, 1⟩, ⟨3, 1⟩], [], [], []⟩, [2, 1]⟩, ⟨0, 0⟩, ⟨0, 0, 2 ^ 32⟩⟩, ∅⟩) ∧
      ((¬ ∃ r ∈ ([2, 1] : List Nat),
          (⟨[⟨5, 1⟩, ⟨3, 1⟩], [], [], []⟩ : UniqueStoreAllocator Nat).get r = .ok 4) →
        u1._store._store.allocator =
          ((⟨[⟨5, 1⟩, ⟨3, 1⟩], [], [], []⟩ : UniqueStoreAllocator Nat).allocate 4).2 ∧
        u1._possibly_unused = Insert.insert
          ((⟨[⟨5, 1⟩, ⟨3, 1⟩], [], [], []⟩ : UniqueStoreAllocator Nat).allocate 4).1 ∅ ∧
        ((⟨[⟨5, 1⟩, ⟨3, 1⟩], [], [], []⟩ : UniqueStoreAllocator Nat).allocate 4).1
          ∈ u1._store._store.dict ∧
        ((⟨[⟨5, 1⟩, ⟨3, 1⟩], [], [], []⟩ : UniqueStoreAllocator Nat).allocate 4).1
          ∉ ([2, 1] : List Nat)) ∧
      (∃ idx, u1._store.findIndex 4 0 = .ok (true, idx) ∧
        u1._store._store.allocator.get idx = .ok 4) ∧
      u1._store._store.WF ∧ u1._store._store.Ordered :=
  have hord : (⟨⟨⟨⟨[⟨5, 1⟩, ⟨3, 1⟩], [], [], []⟩, [2, 1]⟩, ⟨0, 0⟩, ⟨0, 0, 2 ^ 32⟩⟩, ∅⟩ :
      BatchUpdater Nat)._store._store.Ordered :=
    List.pairwise_pair.2 ⟨3, 5, rfl, rfl, by decide⟩
  ⟨by decide, hord,
    batch_insert_marks_only_new
      (⟨⟨⟨⟨[⟨5, 1⟩, ⟨3, 1⟩], [], [], []⟩, [2, 1]⟩, ⟨0, 0⟩, ⟨0, 0, 2 ^ 32⟩⟩, ∅⟩ : BatchUpdater Nat)
      (by decide) hord 4 0⟩

end search.EnumStoreT

/-! ## Compaction -/

namespace search.UniqueStore

variable {E : Type}

theorem lookup_of_mem_fst (table : List (Nat × Nat)) (old : Nat)
    (h : old ∈ table.map Prod.fst) :
    ∃ new_idx, table.lookup old = some new_idx ∧ (old, new_idx) ∈ table := by
  induction table with
  | nil => simp at h
  | cons p rest ih =>
    obtain ⟨k, n⟩ := p
    by_cases hk : old = k
    · subst hk
      exact ⟨n, by simp [List.lookup], by simp⟩
    · have hmem : old ∈ rest.map Prod.fst := by
        rcases List.mem_cons.1 h with h1 | h1
        · exact absurd h1 hk
        · exact h1
      obtain ⟨m, hm1, hm2⟩ := ih hmem
      refine ⟨m, ?_, List.mem_cons_of_mem _ hm2⟩
      have hbeq : (old == k) = false := by simpa using hk
      simp [List.lookup, hbeq, hm1]

/-- Relocation of allocated entries: every recorded pair `(old, new)` has the entry of `old`
copied to the fresh slot `new`, nothing that was allocated changes, and the old slots go on the
hold list. -/
theorem move_entries_spec (refs : List Nat) :
    ∀ a : UniqueStoreAllocator E, (∀ r ∈ refs, a.Allocated r) →
      ∃ table a2, move_entries a refs = .ok (table, a2) ∧
        table.map Prod.fst = refs ∧
        a2.slots.length = a.slots.length + refs.length ∧
        (∀ p ∈ table, a2.get_wrapped p.2 = a.get_wrapped p.1 ∧ a.slots.length < p.2 ∧
          a2.Allocated p.2) ∧
        (∀ r, a.Allocated r → a2.get_wrapped r = a.get_wrapped r) ∧
        a2.free_list = a.free_list ∧ a2.hold1 = a.hold1 ++ refs ∧ a2.hold2 = a.hold2 := by
  induction refs with
  | nil =>
    intro a _
    exact ⟨[], a, rfl, rfl, by simp, by simp, fun _ _ => rfl, rfl, by simp, rfl⟩
  | cons r rest ih =>
    intro a hal
    have hr := hal r (by simp)
    obtain ⟨e, he, hslot⟩ := UniqueStoreAllocator.get_wrapped_of_allocated a r hr
    have hkeep : ∀ r', a.Allocated r' →
        ({ a with slots := a.slots ++ [e], hold1 := a.hold1 ++ [r] } :
          UniqueStoreAllocator E).get_wrapped r' = a.get_wrapped r' := by
      intro r' hr'
      have hlt : r' - 1 < a.slots.length := by have := hr'.1; have := hr'.2; omega
      simp [UniqueStoreAllocator.get_wrapped, List.getElem?_append_left hlt]
    have hal1 : ∀ r' ∈ rest,
        ({ a with slots := a.slots ++ [e], hold1 := a.hold1 ++ [r] } :
          UniqueStoreAllocator E).Allocated r' := by
      intro r' hr'
      have := hal r' (List.mem_cons_of_mem _ hr')
      exact ⟨this.1, by have := this.2; simp; omega⟩
    obtain ⟨table, a2, hmove, hfst, hlen, hpairs, hpres, hfree, hh1, hh2⟩ := ih _ hal1
    have hnew : ({ a with slots := a.slots ++ [e], hold1 := a.hold1 ++ [r] } :
        UniqueStoreAllocator E).Allocated (a.slots.length + 1) := ⟨by omega, by simp⟩
    have hnewget : ({ a with slots := a.slots ++ [e], hold1 := a.hold1 ++ [r] } :
        UniqueStoreAllocator E).get_wrapped (a.slots.length + 1) = .ok e := by
      simp [UniqueStoreAllocator.get_wrapped]
    refine ⟨(r, a.slots.length + 1) :: table, a2, by simp [move_entries, he, hmove],
      by simp [hfst], ?_, ?_, ?_, hfree, ?_, hh2⟩
    · rw [hlen]; simp; omega
    · intro p hp
      rcases List.mem_cons.1 hp with h1 | h1
      · subst h1
        refine ⟨?_, by simp, ?_⟩
        · rw [hpres _ hnew, hnewget, he]
        · exact ⟨by simp, by rw [hlen]; simp⟩
      · obtain ⟨h2, h3, h4⟩ := hpairs p h1
        have hp1 : p.1 ∈ rest := by
          rw [← hfst]; exact List.mem_map_of_mem _ h1
        refine ⟨by rw [h2]; exact hkeep _ (hal _ (List.mem_cons_of_mem _ hp1)), ?_, h4⟩
        have : a.slots.length ≤ (a.slots ++ [e]).length := by simp
        exact lt_of_le_of_lt this h3
    · intro r' hr'
      have h1 : ({ a with slots := a.slots ++ [e], hold1 := a.hold1 ++ [r] } :
          UniqueStoreAllocator E).Allocated r' := ⟨hr'.1, by have := hr'.2; simp; omega⟩
      rw [hpres r' h1]
      exact hkeep r' hr'
    · rw [hh1]; simp

end search.UniqueStore

namespace search.EnumStoreT

variable {E : Type}

/-- C12 (compaction preserves semantics): on every store whose dictionary refers to allocated
slots, `compact_worst` returns a remap, and afterwards the live entries, value and reference
count, are those of before, in the same dictionary order, so the set of distinct live values
and the reference count of each are unchanged; every old live `Index` maps through the remap
to an `Index` of the new dictionary that resolves to the same entry.  The same holds for a
`consider_compact` that triggers. -/
theorem compaction_preserves_semantics (s : EnumStoreT E)
    (hal : ∀ r ∈ s._store.dict, s._store.allocator.Allocated r) (m a : Bool) :
    ∃ table s1, s.compact_worst m a = .ok (some table, s1) ∧
      s1._store.dict.map s1._store.allocator.get_wrapped =
        s._store.dict.map s._store.allocator.get_wrapped ∧
      (∀ e, (∃ r ∈ s1._store.dict, s1._store.allocator.get_wrapped r = .ok e) ↔
        (∃ r ∈ s._store.dict, s._store.allocator.get_wrapped r = .ok e)) ∧
      (∀ old ∈ s._store.dict,
        EnumIndexRemapper.remap table old ∈ s1._store.dict ∧
        s1._store.allocator.get_wrapped (EnumIndexRemapper.remap table old) =
          s._store.allocator.get_wrapped old ∧
        s1._store.allocator.get (EnumIndexRemapper.remap table old) =
          s._store.allocator.get old) ∧
      (∀ (fp : DoubleArith) (strategy : CompactionStrategy fp.D)
        (cw : EnumStoreT E → Bool → Bool → Option (List (Nat × Nat)) × EnumStoreT E),
        (∀ s' m' a' r, s'.compact_worst m' a' = .ok r → cw s' m' a' = r) →
        m = s.compact_memory fp strategy → a = s.compact_address_space fp strategy →
        (m = true ∨ a = true) →
        s.consider_compact fp cw strategy = (some table, s1)) := by
  obtain ⟨table, a2, hmove, hfst, -, hpairs, -, -, -, -⟩ :=
    UniqueStore.move_entries_spec s._store.dict s._store.allocator hal
  have hcw : s.compact_worst m a =
      .ok (some table, { s with _store := ⟨a2, table.map Prod.snd⟩ }) := by
    simp [compact_worst, UniqueStore.compact_worst, hmove]
  have hmap : (table.map Prod.snd).map a2.get_wrapped =
      s._store.dict.map s._store.allocator.get_wrapped := by
    rw [← hfst, List.map_map, List.map_map]
    exact List.map_congr_left (fun p hp => (hpairs p hp).1)
  refine ⟨table, { s with _store := ⟨a2, table.map Prod.snd⟩ }, hcw, hmap, ?_, ?_, ?_⟩
  · intro e
    have e1 : (∃ r ∈ table.map Prod.snd, a2.get_wrapped r = .ok e) ↔
        Except.ok e ∈ (table.map Prod.snd).map a2.get_wrapped := by
      rw [List.mem_map]
    have e2 : (∃ r ∈ s._store.dict, s._store.allocator.get_wrapped r = .ok e) ↔
        Except.ok e ∈ s._store.dict.map s._store.allocator.get_wrapped := by
      rw [List.mem_map]
    simp only
    rw [e1, e2, hmap]
  · intro old hold
    obtain ⟨n, hlook, hmem⟩ := UniqueStore.lookup_of_mem_fst table old (by rw [hfst]; exact hold)
    have hremap : EnumIndexRemapper.remap table old = n := by
      simp [EnumIndexRemapper.remap, hlook]
    have hgw := (hpairs (old, n) hmem).1
    simp only at hgw
    rw [hremap]
    refine ⟨List.mem_map.2 ⟨(old, n), hmem, rfl⟩, hgw, ?_⟩
    simp [UniqueStoreAllocator.get, hgw]
  · intro fp strategy cw hagree hm ha htrig
    have hres := hagree s m a _ hcw
    have hflag : (s.compact_memory fp strategy || s.compact_address_space fp strategy) = true := by
      rw [← hm, ← ha]
      rcases htrig with h | h <;> simp [h]
    simp only [consider_compact, hflag, if_true]
    rw [← hm, ← ha]
    exact hres

/-- Witness for C12: the entries 3 and 5, stored in slots 2 and 1, are relocated to slots 3 and
4 in dictionary order. -/
theorem compaction_preserves_semantics_witness :
    (∀ r ∈ (⟨⟨⟨[⟨5, 2⟩, ⟨3, 1⟩], [], [], []⟩, [2, 1]⟩, ⟨0, 0⟩, ⟨0, 0, 2 ^ 32⟩⟩ :
        EnumStoreT Nat)._store.dict,
      (⟨⟨⟨[⟨5, 2⟩, ⟨3, 1⟩], [], [], []⟩, [2, 1]⟩, ⟨0, 0⟩, ⟨0, 0, 2 ^ 32⟩⟩ :
        EnumStoreT Nat)._store.allocator.Allocated r) ∧
    (⟨⟨⟨[⟨5, 2⟩, ⟨3, 1⟩], [], [], []⟩, [2, 1]⟩, ⟨0, 0⟩, ⟨0, 0, 2 ^ 32⟩⟩ :
        EnumStoreT Nat).compact_worst true false =
      .ok (some [(2, 3), (1, 4)],
        ⟨⟨⟨[⟨5, 2⟩, ⟨3, 1⟩, ⟨3, 1⟩, ⟨5, 2⟩], [], [2, 1], []⟩, [3, 4]⟩, ⟨0, 0⟩, ⟨0, 0, 2 ^ 32⟩⟩) ∧
    ∃ table s1,
      (⟨⟨⟨[⟨5, 2⟩, ⟨3, 1⟩], [], [], []⟩, [2, 1]⟩, ⟨0, 0⟩, ⟨0, 0, 2 ^ 32⟩⟩ :
        EnumStoreT Nat).compact_worst true false = .ok (some table, s1) ∧
      s1._store.dict.map s1._store.allocator.get_wrapped =
        ([2, 1] : List Nat).map
          (⟨[⟨5, 2⟩, ⟨3, 1⟩], [], [], []⟩ : UniqueStoreAllocator Nat).get_wrapped :=
  have hal : ∀ r ∈ (⟨⟨⟨[⟨5, 2⟩, ⟨3, 1⟩], [], [], []⟩, [2, 1]⟩, ⟨0, 0⟩, ⟨0, 0, 2 ^ 32⟩⟩ :
        EnumStoreT Nat)._store.dict,
      (⟨⟨⟨[⟨5, 2⟩, ⟨3, 1⟩], [], [], []⟩, [2, 1]⟩, ⟨0, 0⟩, ⟨0, 0, 2 ^ 32⟩⟩ :
        EnumStoreT Nat)._store.allocator.Allocated r := by decide
  ⟨hal, rfl,
    (compaction_preserves_semantics
      (⟨⟨⟨[⟨5, 2⟩, ⟨3, 1⟩], [], [], []⟩, [2, 1]⟩, ⟨0, 0⟩, ⟨0, 0, 2 ^ 32⟩⟩ : EnumStoreT Nat)
      hal true false).imp (fun _ h => h.imp (fun _ h' => ⟨h'.1, h'.2.1⟩))⟩

end search.EnumStoreT

/-! ## Cached usage counters -/

namespace search.EnumStoreT

variable {E : Type}

/-- C14 (the compaction decision uses only cached counters): two stores with the same cached
counters get the same flags and the same decision from `consider_compact`, whatever they hold;
a store whose cached counters are as constructed (used 0, dead 0, address-space limit 2^32)
gets no remap for every strategy, whatever its data store holds; `update_stat` replaces both
cached counters with the current values of the data store and touches nothing else, and the
decision taken afterwards is the one computed from those values. -/
theorem consider_compact_uses_cached_counters {R : Type} (fp : DoubleArith)
    (compact_worst : EnumStoreT E → Bool → Bool → Option R × EnumStoreT E)
    (acc : UsageAccounting E) (strategy : CompactionStrategy fp.D) :
    (∀ s1 s2 : EnumStoreT E,
      s1._cached_values_memory_usage = s2._cached_values_memory_usage →
      s1._cached_values_address_space_usage = s2._cached_values_address_space_usage →
      s1.compact_memory fp strategy = s2.compact_memory fp strategy ∧
      s1.compact_address_space fp strategy = s2.compact_address_space fp strategy ∧
      ((s1.consider_compact fp compact_worst strategy = (none, s1) ∧
          s2.consider_compact fp compact_worst strategy = (none, s2)) ∨
        ∃ m a, (m = true ∨ a = true) ∧
          s1.consider_compact fp compact_worst strategy = compact_worst s1 m a ∧
          s2.consider_compact fp compact_worst strategy = compact_worst s2 m a)) ∧
    ((mk_empty : EnumStoreT E)._cached_values_memory_usage = ⟨0, 0⟩ ∧
      (mk_empty : EnumStoreT E)._cached_values_address_space_usage = ⟨0, 0, 2 ^ 32⟩) ∧
    (∀ st : UniqueStore E,
      (⟨st, ⟨0, 0⟩, ⟨0, 0, 2 ^ 32⟩⟩ : EnumStoreT E).consider_compact fp compact_worst strategy
        = (none, ⟨st, ⟨0, 0⟩, ⟨0, 0, 2 ^ 32⟩⟩)) ∧
    (∀ s : EnumStoreT E,
      (s.update_stat acc).2._cached_values_memory_usage = acc.getMemoryUsage s._store.allocator ∧
      (s.update_stat acc).2._cached_values_address_space_usage
        = acc.getAddressSpaceUsage s._store.allocator ∧
      (s.update_stat acc).2._store = s._store ∧
      (s.update_stat acc).1
        = acc.merge (acc.getMemoryUsage s._store.allocator) (acc.dict_get_memory_usage s._store) ∧
      (s.update_stat acc).2.compact_memory fp strategy =
        (decide ((acc.getMemoryUsage s._store.allocator).deadBytes ≥ 65536) &&
          fp.lt (fp.mul (fp.ofSize (acc.getMemoryUsage s._store.allocator).usedBytes)
            strategy.getMaxDeadBytesRatio)
            (fp.ofSize (acc.getMemoryUsage s._store.allocator).deadBytes)) ∧
      (s.update_stat acc).2.compact_address_space fp strategy =
        (decide ((acc.getAddressSpaceUsage s._store.allocator).dead ≥ 65536) &&
          fp.lt (fp.mul (fp.ofSize (acc.getAddressSpaceUsage s._store.allocator).used)
            strategy.getMaxDeadAddressSpaceRatio)
            (fp.ofSize (acc.getAddressSpaceUsage s._store.allocator).dead))) := by
  refine ⟨?_, ⟨rfl, rfl⟩, ?_, ?_⟩
  · intro s1 s2 hmem has
    have hm : s1.compact_memory fp strategy = s2.compact_memory fp strategy := by
      simp [compact_memory, hmem]
    have ha : s1.compact_address_space fp strategy = s2.compact_address_space fp strategy := by
      simp [compact_address_space, has]
    refine ⟨hm, ha, ?_⟩
    by_cases h : s2.compact_memory fp strategy = true ∨ s2.compact_address_space fp strategy = true
    · refine Or.inr ⟨s2.compact_memory fp strategy, s2.compact_address_space fp strategy, h, ?_, ?_⟩
      · rcases h with h | h <;> simp [consider_compact, hm, ha, h]
      · rcases h with h | h <;> simp [consider_compact, h]
    · have e1 : s2.compact_memory fp strategy = false := by
        cases hc : s2.compact_memory fp strategy <;> simp_all
      have e2 : s2.compact_address_space fp strategy = false := by
        cases hc : s2.compact_address_space fp strategy <;> simp_all
      exact Or.inl ⟨by simp [consider_compact, hm, ha, e1, e2], by simp [consider_compact, e1, e2]⟩
  · intro st
    simp [consider_compact, compact_memory, compact_address_space, DEAD_BYTES_SLACK,
      DEAD_ADDRESS_SPACE_SLACK]
  · intro s
    refine ⟨rfl, rfl, rfl, rfl, ?_, ?_⟩
    · simp [update_stat, compact_memory, DEAD_BYTES_SLACK]
    · simp [update_stat, compact_address_space, DEAD_ADDRESS_SPACE_SLACK]

/-- Witness for C14: an empty store and a store holding an entry, with the same cached
counters. -/
theorem consider_compact_uses_cached_counters_witness :
    (⟨UniqueStore.empty, ⟨100000, 70000⟩, ⟨500, 100, 2 ^ 32⟩⟩ :
        EnumStoreT Nat)._cached_values_memory_usage =
      (⟨⟨⟨[⟨7, 1⟩], [], [], []⟩, [1]⟩, ⟨100000, 70000⟩, ⟨500, 100, 2 ^ 32⟩⟩ :
        EnumStoreT Nat)._cached_values_memory_usage ∧
    (⟨UniqueStore.empty, ⟨100000, 70000⟩, ⟨500, 100, 2 ^ 32⟩⟩ :
        EnumStoreT Nat)._cached_values_address_space_usage =
      (⟨⟨⟨[⟨7, 1⟩], [], [], []⟩, [1]⟩, ⟨100000, 70000⟩, ⟨500, 100, 2 ^ 32⟩⟩ :
        EnumStoreT Nat)._cached_values_address_space_usage ∧
    (⟨UniqueStore.empty, ⟨100000, 70000⟩, ⟨500, 100, 2 ^ 32⟩⟩ : EnumStoreT Nat).compact_memory
        rat_arith ⟨(1 / 5 : ℚ), (1 / 5 : ℚ)⟩ =
      (⟨⟨⟨[⟨7, 1⟩], [], [], []⟩, [1]⟩, ⟨100000, 70000⟩, ⟨500, 100, 2 ^ 32⟩⟩ :
        EnumStoreT Nat).compact_memory rat_arith ⟨(1 / 5 : ℚ), (1 / 5 : ℚ)⟩ :=
  ⟨rfl, rfl,
    ((@consider_compact_uses_cached_counters Nat Unit rat_arith (fun s _ _ => (none, s))
      ⟨fun _ => ⟨0, 0⟩, fun _ => ⟨0, 0, 0⟩, fun _ => ⟨0, 0⟩, fun x _ => x⟩
      ⟨(1 / 5 : ℚ), (1 / 5 : ℚ)⟩).1
      (⟨UniqueStore.empty, ⟨100000, 70000⟩, ⟨500, 100, 2 ^ 32⟩⟩ : EnumStoreT Nat)
      (⟨⟨⟨[⟨7, 1⟩], [], [], []⟩, [1]⟩, ⟨100000, 70000⟩, ⟨500, 100, 2 ^ 32⟩⟩ : EnumStoreT Nat)
      rfl rfl).1⟩

end search.EnumStoreT

/-! # Simple expand detection -/

namespace vespalib.tensor

theorem sorted_strip_trivial (l : List Dimension) (h : sorted_by_name l) :
    sorted_by_name (strip_trivial l) :=
  List.Pairwise.sublist (List.filter_sublist l) h

/-- In a list sorted by name every name lies between the first and the last. -/
theorem sorted_bounds (x : Dimension) (xs : List Dimension) (h : sorted_by_name (x :: xs)) :
    ∀ d ∈ x :: xs, x.name ≤ d.name ∧
      d.name ≤ ((x :: xs).getLast (List.cons_ne_nil _ _)).name := by
  intro d hd
  constructor
  · rcases List.mem_cons.1 hd with h1 | h1
    · rw [h1]
    · exact (List.pairwise_cons.1 h).1 d h1
  · have hsplit := List.dropLast_append_getLast (List.cons_ne_nil x xs)
    have hp : List.Pairwise (fun d e => d.name ≤ e.name)
        ((x :: xs).dropLast ++ [(x :: xs).getLast (List.cons_ne_nil _ _)]) := by
      rw [hsplit]; exact h
    have hd' : d ∈ (x :: xs).dropLast ++ [(x :: xs).getLast (List.cons_ne_nil _ _)] := by
      rw [hsplit]; exact hd
    rcases List.mem_append.1 hd' with h1 | h1
    · exact (List.pairwise_append.1 hp).2.2 d h1 _ (by simp)
    · rw [List.mem_singleton.1 h1]

/-- C16 (simple-expand detection is sound and symmetric): `strip_trivial` keeps exactly the
dimensions of size other than 1, in order; with `a` and `b` the stripped lists,
`detect_simple_expand` gives nothing if `a` or `b` is empty, RHS if the last name of `a` is less
than the first name of `b`, else LHS if the last name of `b` is less than the first name of `a`,
and nothing otherwise.  For dimension lists sorted by name the two conditions exclude each
other, a result of RHS or LHS implies that `a` and `b` share no name, and
`detect(lhs, rhs) = RHS` if and only if `detect(rhs, lhs) = LHS`. -/
theorem detect_simple_expand_sound_symmetric (lhs rhs : List Dimension) :
    ((strip_trivial lhs).Sublist lhs ∧ ∀ d, d ∈ strip_trivial lhs ↔ d ∈ lhs ∧ d.size ≠ 1) ∧
    ((strip_trivial lhs = [] ∨ strip_trivial rhs = []) → detect_simple_expand lhs rhs = none) ∧
    (∀ a_front a_rest b_front b_rest, strip_trivial lhs = a_front :: a_rest →
      strip_trivial rhs = b_front :: b_rest →
      detect_simple_expand lhs rhs =
        if ((a_front :: a_rest).getLast (List.cons_ne_nil _ _)).name < b_front.name then
          some Inner.RHS
        else if ((b_front :: b_rest).getLast (List.cons_ne_nil _ _)).name < a_front.name then
          some Inner.LHS
        else none) ∧
    (sorted_by_name lhs → sorted_by_name rhs →
      (∀ a_front a_rest b_front b_rest, strip_trivial lhs = a_front :: a_rest →
        strip_trivial rhs = b_front :: b_rest →
        ¬ (((a_front :: a_rest).getLast (List.cons_ne_nil _ _)).name < b_front.name ∧
          ((b_front :: b_rest).getLast (List.cons_ne_nil _ _)).name < a_front.name)) ∧
      (detect_simple_expand lhs rhs ≠ none →
        ∀ d ∈ strip_trivial lhs, ∀ e ∈ strip_trivial rhs, d.name ≠ e.name) ∧
      (detect_simple_expand lhs rhs = some Inner.RHS ↔
        detect_simple_expand rhs lhs = some Inner.LHS)) := by
  have hcase : ∀ (l r : List Dimension) a_front a_rest b_front b_rest,
      strip_trivial l = a_front :: a_rest → strip_trivial r = b_front :: b_rest →
      detect_simple_expand l r =
        if ((a_front :: a_rest).getLast (List.cons_ne_nil _ _)).name < b_front.name then
          some Inner.RHS
        else if ((b_front :: b_rest).getLast (List.cons_ne_nil _ _)).name < a_front.name then
          some Inner.LHS
        else none := by
    intro l r a_front a_rest b_front b_rest ha hb
    simp only [detect_simple_expand, ha, hb]
  have hexcl : ∀ (l r : List Dimension), sorted_by_name l → sorted_by_name r →
      ∀ a_front a_rest b_front b_rest, strip_trivial l = a_front :: a_rest →
      strip_trivial r = b_front :: b_rest →
      ¬ (((a_front :: a_rest).getLast (List.cons_ne_nil _ _)).name < b_front.name ∧
        ((b_front :: b_rest).getLast (List.cons_ne_nil _ _)).name < a_front.name) := by
    intro l r hl hr a_front a_rest b_front b_rest ha hb ⟨h1, h2⟩
    have hsa := sorted_strip_trivial l hl
    have hsb := sorted_strip_trivial r hr
    rw [ha] at hsa
    rw [hb] at hsb
    have e1 := (sorted_bounds a_front a_rest hsa a_front (by simp)).2
    have e2 := (sorted_bounds b_front b_rest hsb b_front (by simp)).2
    exact absurd (lt_of_lt_of_le (lt_of_le_of_lt e1 h1) (le_trans e2 h2.le)) (lt_irrefl _)
  refine ⟨⟨List.filter_sublist lhs, fun d => by simp [strip_trivial]⟩, ?_, hcase lhs rhs, ?_⟩
  · rintro (h | h)
    · simp [detect_simple_expand, h]
    · cases ha : strip_trivial lhs <;> simp [detect_simple_expand, h, ha]
  · intro hl hr
    refine ⟨hexcl lhs rhs hl hr, ?_, ?_⟩
    · intro hne d hd e he hde
      cases ha : strip_trivial lhs with
      | nil => simp [ha] at hd
      | cons a_front a_rest =>
        cases hb : strip_trivial rhs with
        | nil => simp [hb] at he
        | cons b_front b_rest =>
          have hsa := sorted_strip_trivial lhs hl
          have hsb := sorted_strip_trivial rhs hr
          rw [ha] at hsa hd
          rw [hb] at hsb he
          obtain ⟨d1, d2⟩ := sorted_bounds a_front a_rest hsa d hd
          obtain ⟨e1, e2⟩ := sorted_bounds b_front b_rest hsb e he
          rw [hcase lhs rhs _ _ _ _ ha hb] at hne
          by_cases h1 : ((a_front :: a_rest).getLast (List.cons_ne_nil _ _)).name < b_front.name
          · exact absurd (lt_of_le_of_lt d2 (lt_of_lt_of_le h1 e1)) (by rw [hde]; exact lt_irrefl _)
          · by_cases h2 :
                ((b_front :: b_rest).getLast (List.cons_ne_nil _ _)).name < a_front.name
            · exact absurd (lt_of_le_of_lt e2 (lt_of_lt_of_le h2 d1))
                (by rw [hde]; exact lt_irrefl _)
            · simp [h1, h2] at hne
    · cases ha : strip_trivial lhs with
      | nil =>
        have e1 : detect_simple_expand lhs rhs = none := by simp [detect_simple_expand, ha]
        have e2 : detect_simple_expand rhs lhs = none := by
          cases hb : strip_trivial rhs <;> simp [detect_simple_expand, ha, hb]
        simp [e1, e2]
      | cons a_front a_rest =>
        cases hb : strip_trivial rhs with
        | nil =>
          have e1 : detect_simple_expand lhs rhs = none := by simp [detect_simple_expand, ha, hb]
          have e2 : detect_simple_expand rhs lhs = none := by simp [detect_simple_expand, hb]
          simp [e1, e2]
        | cons b_front b_rest =>
          have hx := hexcl lhs rhs hl hr _ _ _ _ ha hb
          rw [hcase lhs rhs _ _ _ _ ha hb, hcase rhs lhs _ _ _ _ hb ha]
          by_cases h1 : ((a_front :: a_rest).getLast (List.cons_ne_nil _ _)).name < b_front.name
          · have h2 : ¬ ((b_front :: b_rest).getLast (List.cons_ne_nil _ _)).name < a_front.name :=
              fun h2 => hx ⟨h1, h2⟩
            simp [h1, h2]
          · by_cases h2 :
                ((b_front :: b_rest).getLast (List.cons_ne_nil _ _)).name < a_front.name
            · simp [h1, h2]
            · simp [h1, h2]

/-- Witness for C16: `lhs = [a(3), b(1)]`, `rhs = [c(2)]`, so `a = [a(3)]`, `b = [c(2)]`, and an
`lhs` made of a trivial dimension only. -/
theorem detect_simple_expand_sound_symmetric_witness :
    (strip_trivial [⟨"b", 1⟩] = [] ∨ strip_trivial [⟨"c", 2⟩] = []) ∧
    detect_simple_expand [⟨"b", 1⟩] [⟨"c", 2⟩] = none ∧
    strip_trivial [⟨"a", 3⟩, ⟨"b", 1⟩] = [⟨"a", 3⟩] ∧
    strip_trivial [⟨"c", 2⟩] = [⟨"c", 2⟩] ∧
    sorted_by_name [⟨"a", 3⟩, ⟨"b", 1⟩] ∧ sorted_by_name [⟨"c", 2⟩] ∧
    detect_simple_expand [⟨"a", 3⟩, ⟨"b", 1⟩] [⟨"c", 2⟩] = some Inner.RHS ∧
    detect_simple_expand [⟨"c", 2⟩] [⟨"a", 3⟩, ⟨"b", 1⟩] = some Inner.LHS ∧
    (∀ d ∈ strip_trivial [⟨"a", 3⟩, ⟨"b", 1⟩], ∀ e ∈ strip_trivial [⟨"c", 2⟩], d.name ≠ e.name) :=
  have hac : ("a" : String) < "c" := by rw [String.lt_iff_toList_lt]; decide
  have hab : ("a" : String) ≤ "b" := le_of_lt (by rw [String.lt_iff_toList_lt]; decide)
  have hl : sorted_by_name [⟨"a", 3⟩, ⟨"b", 1⟩] := List.pairwise_pair.2 hab
  have hr : sorted_by_name [⟨"c", 2⟩] := by simp [sorted_by_name]
  have hrhs : detect_simple_expand [⟨"a", 3⟩, ⟨"b", 1⟩] [⟨"c", 2⟩] = some Inner.RHS := by
    rw [(detect_simple_expand_sound_symmetric [⟨"a", 3⟩, ⟨"b", 1⟩] [⟨"c", 2⟩]).2.2.1
      ⟨"a", 3⟩ [] ⟨"c", 2⟩ [] rfl rfl]
    simp [hac]
  ⟨Or.inl rfl,
    (detect_simple_expand_sound_symmetric [⟨"b", 1⟩] [⟨"c", 2⟩]).2.1 (Or.inl rfl),
    rfl, rfl, hl, hr, hrhs,
    ((detect_simple_expand_sound_symmetric [⟨"a", 3⟩, ⟨"b", 1⟩] [⟨"c", 2⟩]).2.2.2 hl hr).2.2.1 hrhs,
    ((detect_simple_expand_sound_symmetric [⟨"a", 3⟩, ⟨"b", 1⟩] [⟨"c", 2⟩]).2.2.2 hl hr).2.1
      (by rw [hrhs]; exact Option.some_ne_none _)⟩

end vespalib.tensor
